/-
Verification of the deep-hedging simulator core (`src/simulator/env.py` and
`src/simulator/features.py`) against its natural-language specification.

The embedding is shallow: Python floats are modelled as rationals (ℚ), pandas
tables as lists of records, and the NumPy/pandas operations used by the code
(clip, stable multi-key sort, drop_duplicates / groupby-first, pivot,
combine_first) as executable Lean functions on those lists.
-/
import Mathlib

set_option maxHeartbeats 1000000

/-! ## The hedging environment (`src/simulator/env.py`)

`HedgingEnv.__init__` stores the feature matrix `X` (rows of the selected
feature columns, restricted to rows with a defined forward return) and the
forward-return vector `R`, together with the configuration scalars.  We embed
that post-construction state directly: `R` and `X` are the already-built
arrays, aligned row by row. -/

structure HedgingEnv where
  R : List ℚ
  X : List (List ℚ)
  window : ℕ
  txn_cost_bps : ℚ
  pos_limit : ℚ
deriving DecidableEq

/-- The per-step `info` dict `{ret, pnl, pos, nav, cost}` built by `step`. -/
structure StepInfo where
  ret : ℚ
  pnl : ℚ
  pos : ℚ
  nav : ℚ
  cost : ℚ
deriving DecidableEq

/-- The runtime episode state `{t, nav, pos, done}` mutated by `reset`/`step`. -/
structure EnvState where
  t : ℕ
  nav : ℚ
  pos : ℚ
  done : Bool
deriving DecidableEq

/-- `np.clip(x, -lim, lim)`: NumPy clips as `min (max x lo) hi`. -/
def clipQ (lim x : ℚ) : ℚ := min (max x (-lim)) lim

/-- `self.T = len(self.R)`. -/
def HedgingEnv.T (env : HedgingEnv) : ℕ := env.R.length

/-- `reset`: `t = window`, `nav = 1.0`, `pos = 0.0`, `done = False`. -/
def HedgingEnv.resetState (env : HedgingEnv) : EnvState :=
  ⟨env.window, 1, 0, false⟩

/-- The Python slice `l[a:b]` for natural indices `a ≤ b`. -/
def pySlice {α : Type} (l : List α) (a b : ℕ) : List α := (l.take b).drop a

/-- `_obs`: the slice `X[t - window : t]`, passed through the optional scaler.
`np.nan_to_num` is the identity in this rational model (no NaN/Inf exist),
so it is not represented. -/
def HedgingEnv.obs (env : HedgingEnv) (scaler : List (List ℚ) → List (List ℚ))
    (t : ℕ) : List (List ℚ) :=
  scaler (pySlice env.X (t - env.window) t)

/-- `step` on an initialized state.  The `done` branch is the source's
documented Gym-like no-op (same state, zero reward, zero-filled pnl/cost).
Otherwise: clip the action, read `R[t]` (total here via `getD`; in-range for
every reachable state), charge `(txn_cost_bps * 1e-4) * |Δpos|`, update
`nav *= (1 + pnl)`, `pos = a`, `t += 1`, `done = t >= T - 1`.
Returns (new state, info, reward = reward_fn pnl info). -/
def HedgingEnv.step (env : HedgingEnv) (rf : ℚ → StepInfo → ℚ)
    (s : EnvState) (action : ℚ) : EnvState × StepInfo × ℚ :=
  if s.done then
    (s, ⟨0, 0, s.pos, s.nav, 0⟩, 0)
  else
    let a := clipQ env.pos_limit action
    let r := env.R.getD s.t 0
    let dpos := a - s.pos
    let cost := env.txn_cost_bps * (1/10000) * |dpos|
    let pnl := a * r - cost
    let nav' := s.nav * (1 + pnl)
    let info : StepInfo := ⟨r, pnl, a, nav', cost⟩
    (⟨s.t + 1, nav', a, decide (env.T - 1 ≤ s.t + 1)⟩, info, rf pnl info)

/-- Python exception classes relevant to the environment:
`KeyError` (missing columns at construction), `ValueError` (window too large
at construction), `TypeError` (what actually escapes from `step` before any
`reset`, where `self.t` is `None`: `self.R[None]` produces an array whose
conversion by `float()` raises `TypeError` for the `T ≥ 2` tables the
constructor admits). -/
inductive PyError
  | typeError
  | keyError
  | valueError
deriving DecidableEq

/-- The runtime protocol of `step`: before `reset` the state fields are `None`
(`none` here) and the call raises a generic `TypeError`; on an initialized
state it never raises. -/
def HedgingEnv.stepRuntime (env : HedgingEnv) (rf : ℚ → StepInfo → ℚ)
    (st : Option EnvState) (a : ℚ) :
    Except PyError (EnvState × StepInfo × ℚ) :=
  match st with
  | none => .error .typeError
  | some s => .ok (env.step rf s a)

/-- Driving `reset`-then-`step` with a fixed action sequence (the state part
of the episode; rewards do not feed back into the state). -/
def HedgingEnv.stepMany (env : HedgingEnv) (rf : ℚ → StepInfo → ℚ)
    (s : EnvState) (acts : List ℚ) : EnvState :=
  acts.foldl (fun s a => (env.step rf s a).1) s

/-- The dict returned by `rollout`, plus the final episode state (the
source keeps it in `self`; claims refer to `env.done` after the call). -/
structure RolloutOut where
  state : EnvState
  rewards : List ℚ
  navs : List ℚ
  positions : List ℚ
  rets : List ℚ
  pnls : List ℚ
  costs : List ℚ
  steps : ℕ

/-- Python's `max_steps or default`: both `None` and `0` are falsy. -/
def pyOrNat (m : Option ℕ) (d : ℕ) : ℕ :=
  match m with
  | none => d
  | some k => if k = 0 then d else k

/-- The `while not self.done and steps < limit` loop of `rollout`, with the
remaining iteration budget `limit - steps` as the recursion fuel. -/
def HedgingEnv.rolloutGo (env : HedgingEnv) (rf : ℚ → StepInfo → ℚ)
    (scaler : List (List ℚ) → List (List ℚ)) (policy : List (List ℚ) → ℚ) :
    ℕ → EnvState → RolloutOut
  | 0, s => ⟨s, [], [], [], [], [], [], 0⟩
  | fuel + 1, s =>
    if s.done then ⟨s, [], [], [], [], [], [], 0⟩
    else
      let a := policy (env.obs scaler s.t)
      let out := env.step rf s a
      let rest := env.rolloutGo rf scaler policy fuel out.1
      ⟨rest.state, out.2.2 :: rest.rewards, out.2.1.nav :: rest.navs,
       out.2.1.pos :: rest.positions, out.2.1.ret :: rest.rets,
       out.2.1.pnl :: rest.pnls, out.2.1.cost :: rest.costs, rest.steps + 1⟩

/-- `rollout`: `reset`, then the step loop bounded by
`max_steps or (T - window - 1)`; `navs`/`positions` traces start with the
post-reset values `1.0` / `0.0`. -/
def HedgingEnv.rollout (env : HedgingEnv) (rf : ℚ → StepInfo → ℚ)
    (scaler : List (List ℚ) → List (List ℚ)) (policy : List (List ℚ) → ℚ)
    (max_steps : Option ℕ) : RolloutOut :=
  let limit := pyOrNat max_steps (env.T - env.window - 1)
  let r := env.rolloutGo rf scaler policy limit env.resetState
  { r with navs := 1 :: r.navs, positions := 0 :: r.positions }

/-! ### C1: the step equations -/

/-- C1: in a non-done state with previous position `p = s.pos` and current
index `t = s.t`, `step action` clips the action to
`a = clip(action, -pos_limit, pos_limit)`, charges
`cost = (txn_cost_bps * 1e-4) * |a - p|`, computes `pnl = a * R[t] - cost`
with `R[t]` the stored forward return, multiplies `nav` by `(1 + pnl)`, sets
`pos = a` and advances `t` by one; the realized position equals the clipped
value for every action, including actions outside `[-pos_limit, pos_limit]`. -/
theorem hedging_step_spec (env : HedgingEnv) (rf : ℚ → StepInfo → ℚ)
    (s : EnvState) (action : ℚ)
    (hdone : s.done = false) (ht : s.t < env.R.length) :
    (env.step rf s action).1 =
      ⟨s.t + 1,
       s.nav * (1 + (clipQ env.pos_limit action * env.R.get ⟨s.t, ht⟩ -
         env.txn_cost_bps * (1/10000) * |clipQ env.pos_limit action - s.pos|)),
       clipQ env.pos_limit action,
       decide (env.T - 1 ≤ s.t + 1)⟩ ∧
    (0 ≤ env.pos_limit →
      -env.pos_limit ≤ (env.step rf s action).1.pos ∧
      (env.step rf s action).1.pos ≤ env.pos_limit) ∧
    (-env.pos_limit ≤ action → action ≤ env.pos_limit →
      (env.step rf s action).1.pos = action) := by
  have hget : env.R.getD s.t 0 = env.R.get ⟨s.t, ht⟩ := by
    rw [List.getD_eq_getD_get?, List.get?_eq_get ht]
    rfl
  constructor
  · simp only [HedgingEnv.step, hdone, Bool.false_eq_true, if_false, hget]
  · constructor
    · intro hlim
      have h1 : -env.pos_limit ≤ max action (-env.pos_limit) := le_max_right _ _
      have h2 : -env.pos_limit ≤ env.pos_limit := by linarith
      constructor
      · simp only [HedgingEnv.step, hdone, Bool.false_eq_true, if_false, clipQ]
        exact le_min h1 h2
      · simp only [HedgingEnv.step, hdone, Bool.false_eq_true, if_false, clipQ]
        exact min_le_right _ _
    · intro hlo hhi
      simp only [HedgingEnv.step, hdone, Bool.false_eq_true, if_false, clipQ]
      rw [max_eq_left hlo, min_eq_left hhi]

/-- Witness for C1 at a concrete input: env with `R = [2]`, `bps = 10000`,
`pos_limit = 1`, stepping the fresh state with the out-of-range action `5`. -/
theorem hedging_step_spec_witness :
    ((⟨0, 1, 0, false⟩ : EnvState).done = false) ∧
    (0 < (HedgingEnv.mk [2] [] 1 10000 1).R.length) ∧
    (((HedgingEnv.mk [2] [] 1 10000 1).step (fun _ _ => 0) ⟨0, 1, 0, false⟩ 5).1 =
        ⟨1, 2, 1, true⟩) := by
  refine ⟨rfl, by decide, ?_⟩
  have h := (hedging_step_spec (HedgingEnv.mk [2] [] 1 10000 1) (fun _ _ => 0)
    ⟨0, 1, 0, false⟩ 5 rfl (by decide)).1
  rw [h]
  have hclip : clipQ (1 : ℚ) 5 = 1 := by
    unfold clipQ
    rw [max_eq_left (by norm_num), min_eq_right (by norm_num)]
  norm_num [hclip, HedgingEnv.T, List.get]

/-! ### C2: the observation window -/

/-- C2: every observation is the feature-matrix slice of rows
`[t - window, t)` for the current index `t` (with the scaler applied): the
slice has exactly `window` rows, row `i` of the slice is feature row
`t - window + i`, and every such row index is strictly below `t`; `reset`
starts at `t = window`, so the first window is full. -/
theorem obs_no_lookahead (env : HedgingEnv)
    (scaler : List (List ℚ) → List (List ℚ)) (t : ℕ)
    (h1 : env.window ≤ t) (h2 : t ≤ env.X.length) :
    env.obs scaler t = scaler (pySlice env.X (t - env.window) t) ∧
    (pySlice env.X (t - env.window) t).length = env.window ∧
    (∀ i, i < env.window →
      (pySlice env.X (t - env.window) t)[i]? = env.X[t - env.window + i]? ∧
      t - env.window + i < t) ∧
    env.resetState.t = env.window := by
  refine ⟨rfl, ?_, ?_, rfl⟩
  · simp only [pySlice, List.length_drop, List.length_take]
    omega
  · intro i hi
    constructor
    · rw [pySlice, List.getElem?_drop, List.getElem?_take_of_lt]
      omega
    · omega

/-- Witness for C2: a three-row feature matrix, `window = 1`, `t = 2`. -/
theorem obs_no_lookahead_witness :
    ((HedgingEnv.mk [0, 0, 0] [[1], [2], [3]] 1 0 1).window ≤ 2) ∧
    (2 ≤ (HedgingEnv.mk [0, 0, 0] [[1], [2], [3]] 1 0 1).X.length) ∧
    ((HedgingEnv.mk [0, 0, 0] [[1], [2], [3]] 1 0 1).obs id 2 =
      id (pySlice (HedgingEnv.mk [0, 0, 0] [[1], [2], [3]] 1 0 1).X (2 - 1) 2) ∧
     (pySlice (HedgingEnv.mk [0, 0, 0] [[1], [2], [3]] 1 0 1).X (2 - 1) 2).length = 1 ∧
     (∀ i, i < 1 →
       (pySlice (HedgingEnv.mk [0, 0, 0] [[1], [2], [3]] 1 0 1).X (2 - 1) 2)[i]? =
         (HedgingEnv.mk [0, 0, 0] [[1], [2], [3]] 1 0 1).X[2 - 1 + i]? ∧
       2 - 1 + i < 2) ∧
     (HedgingEnv.mk [0, 0, 0] [[1], [2], [3]] 1 0 1).resetState.t = 1) :=
  ⟨by decide, by decide,
   obs_no_lookahead (HedgingEnv.mk [0, 0, 0] [[1], [2], [3]] 1 0 1) id 2
     (by decide) (by decide)⟩

/-! ### The rollout loop -/

theorem step_state_t {env : HedgingEnv} {rf : ℚ → StepInfo → ℚ} {s : EnvState}
    {a : ℚ} (h : s.done = false) : (env.step rf s a).1.t = s.t + 1 := by
  simp [HedgingEnv.step, h]

theorem step_state_done {env : HedgingEnv} {rf : ℚ → StepInfo → ℚ}
    {s : EnvState} {a : ℚ} (h : s.done = false) :
    (env.step rf s a).1.done = decide (env.T - 1 ≤ s.t + 1) := by
  simp [HedgingEnv.step, h]

theorem rolloutGo_succ_steps {env : HedgingEnv} {rf : ℚ → StepInfo → ℚ}
    {scaler : List (List ℚ) → List (List ℚ)} {policy : List (List ℚ) → ℚ}
    {fuel : ℕ} {s : EnvState} (h : s.done = false) :
    (env.rolloutGo rf scaler policy (fuel + 1) s).steps =
      (env.rolloutGo rf scaler policy fuel
        (env.step rf s (policy (env.obs scaler s.t))).1).steps + 1 := by
  simp [HedgingEnv.rolloutGo, h]

theorem rolloutGo_succ_state {env : HedgingEnv} {rf : ℚ → StepInfo → ℚ}
    {scaler : List (List ℚ) → List (List ℚ)} {policy : List (List ℚ) → ℚ}
    {fuel : ℕ} {s : EnvState} (h : s.done = false) :
    (env.rolloutGo rf scaler policy (fuel + 1) s).state =
      (env.rolloutGo rf scaler policy fuel
        (env.step rf s (policy (env.obs scaler s.t))).1).state := by
  simp [HedgingEnv.rolloutGo, h]

/-- Exact run-length analysis of the rollout loop: with `fuel` iterations of
budget, starting from a non-done state whose index leaves at least `fuel`
usable steps, the loop runs exactly `fuel` steps, advances `t` by `fuel`, and
ends done exactly when the final index reaches `T - 1` (and at least one step
was taken). -/
theorem rolloutGo_run (env : HedgingEnv) (rf : ℚ → StepInfo → ℚ)
    (scaler : List (List ℚ) → List (List ℚ)) (policy : List (List ℚ) → ℚ) :
    ∀ (fuel : ℕ) (s : EnvState), s.done = false → s.t + fuel ≤ env.T - 1 →
      (env.rolloutGo rf scaler policy fuel s).steps = fuel ∧
      (env.rolloutGo rf scaler policy fuel s).state.t = s.t + fuel ∧
      (env.rolloutGo rf scaler policy fuel s).state.done =
        (decide (env.T - 1 ≤ s.t + fuel) && decide (0 < fuel)) := by
  intro fuel
  induction fuel with
  | zero =>
    intro s hs _
    simp [HedgingEnv.rolloutGo, hs]
  | succ f ih =>
    intro s hs hbound
    have hstep_t : (env.step rf s (policy (env.obs scaler s.t))).1.t = s.t + 1 :=
      step_state_t hs
    have hstep_done : (env.step rf s (policy (env.obs scaler s.t))).1.done =
        decide (env.T - 1 ≤ s.t + 1) := step_state_done hs
    rw [rolloutGo_succ_steps hs, rolloutGo_succ_state hs]
    cases f with
    | zero =>
      refine ⟨by simp [HedgingEnv.rolloutGo], ?_, ?_⟩
      · simp only [HedgingEnv.rolloutGo]
        rw [hstep_t]
      · simp only [HedgingEnv.rolloutGo]
        rw [hstep_done]
        simp
    | succ f' =>
      have hdone' : (env.step rf s (policy (env.obs scaler s.t))).1.done = false := by
        rw [hstep_done]
        simp only [decide_eq_false_iff_not]
        omega
      have ihres := ih (env.step rf s (policy (env.obs scaler s.t))).1 hdone'
        (by rw [hstep_t]; omega)
      refine ⟨by rw [ihres.1], ?_, ?_⟩
      · rw [ihres.2.1, hstep_t]
        omega
      · rw [ihres.2.2, hstep_t]
        have h1 : s.t + 1 + (f' + 1) = s.t + (f' + 1 + 1) := by omega
        rw [h1]
        simp

/-! ### C10: `max_steps=0` selects the default limit -/

/-- C10: `rollout(policy, max_steps=0)` does not stop after zero steps:
because the limit is `max_steps or (T - window - 1)` and `0` is falsy, it
runs the full default episode of `T - window - 1` steps, producing output
identical to `max_steps=None`. -/
theorem rollout_max_steps_zero (env : HedgingEnv) (rf : ℚ → StepInfo → ℚ)
    (scaler : List (List ℚ) → List (List ℚ)) (policy : List (List ℚ) → ℚ) :
    env.rollout rf scaler policy (some 0) = env.rollout rf scaler policy none ∧
    (env.rollout rf scaler policy (some 0)).steps = env.T - env.window - 1 := by
  constructor
  · rfl
  · show (env.rolloutGo rf scaler policy
      (pyOrNat (some 0) (env.T - env.window - 1)) env.resetState).steps = _
    have hlim : pyOrNat (some 0) (env.T - env.window - 1) =
        env.T - env.window - 1 := rfl
    rw [hlim]
    by_cases h : env.window ≤ env.T - 1
    · have := (rolloutGo_run env rf scaler policy (env.T - env.window - 1)
        env.resetState rfl (by simp only [HedgingEnv.resetState]; omega)).1
      simpa [HedgingEnv.resetState] using this
    · have hz : env.T - env.window - 1 = 0 := by omega
      rw [hz]
      simp [HedgingEnv.rolloutGo]

/-! ### C7: episode termination -/

/-- Counterexample to C7 as stated: with `N = 2` usable rows and `W = 1`,
a full rollout reports `steps = N - W - 1 = 0` but the episode is *not*
done at the end (`done` remains false, since the loop limit `0` is reached
before any step could set it). -/
theorem rollout_termination_cex :
    ((HedgingEnv.mk [0, 0] [[0], [0]] 1 0 1).rollout (fun _ _ => 0) id
        (fun _ => 0) none).steps = 2 - 1 - 1 ∧
    ((HedgingEnv.mk [0, 0] [[0], [0]] 1 0 1).rollout (fun _ _ => 0) id
        (fun _ => 0) none).state.done = false := by
  constructor <;> rfl

/-- C7 as amended: provided the panel leaves at least one step
(`window + 2 ≤ T`, i.e. `N ≥ W + 2`), a full rollout with no `max_steps`
reports `steps = N - W - 1`, with `done` true at the end; and any rollout
stopped by a positive `max_steps` short of the full length ends with `done`
still false. -/
theorem rollout_termination (env : HedgingEnv) (rf : ℚ → StepInfo → ℚ)
    (scaler : List (List ℚ) → List (List ℚ)) (policy : List (List ℚ) → ℚ)
    (h : env.window + 2 ≤ env.T) :
    (env.rollout rf scaler policy none).steps = env.T - env.window - 1 ∧
    (env.rollout rf scaler policy none).state.done = true ∧
    (∀ k, 1 ≤ k → k < env.T - env.window - 1 →
      (env.rollout rf scaler policy (some k)).state.done = false) := by
  have hfull := rolloutGo_run env rf scaler policy (env.T - env.window - 1)
    env.resetState rfl (by simp only [HedgingEnv.resetState]; omega)
  refine ⟨?_, ?_, ?_⟩
  · show (env.rolloutGo rf scaler policy
      (pyOrNat none (env.T - env.window - 1)) env.resetState).steps = _
    exact hfull.1
  · show (env.rolloutGo rf scaler policy
      (env.T - env.window - 1) env.resetState).state.done = true
    rw [hfull.2.2]
    simp only [HedgingEnv.resetState, Bool.and_eq_true, decide_eq_true_eq]
    omega
  · intro k hk1 hk2
    have hlim : pyOrNat (some k) (env.T - env.window - 1) = k := by
      simp only [pyOrNat]
      rw [if_neg (by omega)]
    show (env.rolloutGo rf scaler policy
      (pyOrNat (some k) (env.T - env.window - 1)) env.resetState).state.done =
        false
    rw [hlim]
    have hpart := rolloutGo_run env rf scaler policy k env.resetState rfl
      (by simp only [HedgingEnv.resetState]; omega)
    rw [hpart.2.2]
    simp only [HedgingEnv.resetState, Bool.and_eq_false_iff, decide_eq_false_iff_not]
    left
    omega

/-- Witness for the amended C7: four usable rows, `window = 1`: the full
rollout takes two steps, ends done, and a one-step rollout is not done. -/
theorem rollout_termination_witness :
    ((HedgingEnv.mk [0, 0, 0, 0] [[0], [0], [0], [0]] 1 0 1).window + 2 ≤
      (HedgingEnv.mk [0, 0, 0, 0] [[0], [0], [0], [0]] 1 0 1).T) ∧
    (((HedgingEnv.mk [0, 0, 0, 0] [[0], [0], [0], [0]] 1 0 1).rollout
        (fun _ _ => 0) id (fun _ => 0) none).steps =
      (HedgingEnv.mk [0, 0, 0, 0] [[0], [0], [0], [0]] 1 0 1).T - 1 - 1 ∧
     ((HedgingEnv.mk [0, 0, 0, 0] [[0], [0], [0], [0]] 1 0 1).rollout
        (fun _ _ => 0) id (fun _ => 0) none).state.done = true ∧
     (∀ k, 1 ≤ k → k < (HedgingEnv.mk [0, 0, 0, 0] [[0], [0], [0], [0]] 1 0 1).T - 1 - 1 →
       ((HedgingEnv.mk [0, 0, 0, 0] [[0], [0], [0], [0]] 1 0 1).rollout
          (fun _ _ => 0) id (fun _ => 0) (some k)).state.done = false)) :=
  ⟨by decide,
   rollout_termination (HedgingEnv.mk [0, 0, 0, 0] [[0], [0], [0], [0]] 1 0 1)
     (fun _ _ => 0) id (fun _ => 0) (by decide)⟩

/-! ### C8: runtime misuse of `step` -/

/-- Counterexample to C8 as stated: calling `step` after `done` is *not*
signaled with any error — it returns a normal (`.ok`) value, the documented
Gym-like no-op (same state, zero reward, zero pnl/cost), silently
proceeding. -/
theorem step_protocol_cex :
    (HedgingEnv.mk [0, 0] [[0], [0]] 1 0 1).stepRuntime (fun _ _ => 0)
        (some ⟨2, 1, 0, true⟩) 1 =
      .ok (⟨2, 1, 0, true⟩, ⟨0, 0, 0, 1, 0⟩, 0) := rfl

/-- C8 as amended: `step` after `done` silently returns the unchanged state
with zero reward and zero-filled pnl/cost (no error of any kind), and `step`
before any `reset` fails with a generic `TypeError` from using the
uninitialized (`None`) index — not a distinct sequencing error. -/
theorem step_protocol_amended (env : HedgingEnv) (rf : ℚ → StepInfo → ℚ)
    (s : EnvState) (a : ℚ) :
    (s.done = true →
      env.stepRuntime rf (some s) a = .ok (s, ⟨0, 0, s.pos, s.nav, 0⟩, 0)) ∧
    env.stepRuntime rf none a = .error .typeError := by
  constructor
  · intro h
    simp [HedgingEnv.stepRuntime, HedgingEnv.step, h]
  · rfl

/-- Witness for the amended C8 at a concrete done state and input. -/
theorem step_protocol_amended_witness :
    ((⟨2, 1, 0, true⟩ : EnvState).done = true) ∧
    ((⟨2, 1, 0, true⟩ : EnvState).done = true →
      (HedgingEnv.mk [0, 0] [[0], [0]] 1 0 1).stepRuntime (fun _ _ => 0)
          (some ⟨2, 1, 0, true⟩) 5 =
        .ok (⟨2, 1, 0, true⟩, ⟨0, 0, 0, 1, 0⟩, 0)) ∧
    (HedgingEnv.mk [0, 0] [[0], [0]] 1 0 1).stepRuntime (fun _ _ => 0) none 5 =
      .error .typeError :=
  ⟨rfl,
   (step_protocol_amended (HedgingEnv.mk [0, 0] [[0], [0]] 1 0 1)
     (fun _ _ => 0) ⟨2, 1, 0, true⟩ 5).1,
   (step_protocol_amended (HedgingEnv.mk [0, 0] [[0], [0]] 1 0 1)
     (fun _ _ => 0) ⟨2, 1, 0, true⟩ 5).2⟩

/-! ### C3: cost monotonicity -/

/-- The multiplicative growth factor of one executed step: `1 + pnl`, with
`c = txn_cost_bps * 1e-4` the per-unit cost rate. -/
def stepFactor (c lim : ℚ) (R : List ℚ) (t : ℕ) (p a : ℚ) : ℚ :=
  1 + (clipQ lim a * R.getD t 0 - c * |clipQ lim a - p|)

/-- Every step growth factor along the action sequence is positive (the
condition under which multiplicative NAV accounting preserves order). -/
def stepFactorsPos (c lim : ℚ) (R : List ℚ) : ℕ → ℚ → List ℚ → Bool
  | _, _, [] => true
  | t, p, a :: as =>
    decide (0 < stepFactor c lim R t p a) &&
      stepFactorsPos c lim R (t + 1) (clipQ lim a) as

/-- Whether the clipped position ever changes along the action sequence. -/
def posChanges (lim : ℚ) : ℚ → List ℚ → Bool
  | _, [] => false
  | p, a :: as => decide (clipQ lim a ≠ p) || posChanges lim (clipQ lim a) as

theorem stepFactorsPos_cons (c lim : ℚ) (R : List ℚ) (t : ℕ) (p a : ℚ)
    (as : List ℚ) :
    stepFactorsPos c lim R t p (a :: as) =
      (decide (0 < stepFactor c lim R t p a) &&
        stepFactorsPos c lim R (t + 1) (clipQ lim a) as) := rfl

theorem posChanges_cons (lim p a : ℚ) (as : List ℚ) :
    posChanges lim p (a :: as) =
      (decide (clipQ lim a ≠ p) || posChanges lim (clipQ lim a) as) := rfl

theorem step_explicit (env : HedgingEnv) (rf : ℚ → StepInfo → ℚ)
    (s : EnvState) (a : ℚ) (h : s.done = false) :
    (env.step rf s a).1 =
      ⟨s.t + 1,
       s.nav * stepFactor (env.txn_cost_bps * (1/10000)) env.pos_limit env.R
         s.t s.pos a,
       clipQ env.pos_limit a,
       decide (env.T - 1 ≤ s.t + 1)⟩ := by
  simp [HedgingEnv.step, h, stepFactor]

/-- Counterexample to C3 as stated: with forward returns `[0, -2, 0, 0]`,
`window = 1`, `pos_limit = 1` and actions `[1, -1]`, the position changes at
both steps, yet raising `txn_cost_bps` from `0` to `10000` *raises* the final
NAV (from `-1` to `2`): the first step's loss drives NAV negative, after
which the second step's cost-laden negative pnl multiplies it back up. -/
theorem cost_monotonicity_cex :
    (0 : ℚ) ≤ 10000 ∧
    ((HedgingEnv.mk [0, -2, 0, 0] [] 1 0 1).stepMany (fun _ _ => 0)
        (HedgingEnv.mk [0, -2, 0, 0] [] 1 0 1).resetState [1, -1]).nav = -1 ∧
    ((HedgingEnv.mk [0, -2, 0, 0] [] 1 10000 1).stepMany (fun _ _ => 0)
        (HedgingEnv.mk [0, -2, 0, 0] [] 1 10000 1).resetState [1, -1]).nav = 2 ∧
    ¬ (((HedgingEnv.mk [0, -2, 0, 0] [] 1 10000 1).stepMany (fun _ _ => 0)
          (HedgingEnv.mk [0, -2, 0, 0] [] 1 10000 1).resetState [1, -1]).nav ≤
        ((HedgingEnv.mk [0, -2, 0, 0] [] 1 0 1).stepMany (fun _ _ => 0)
          (HedgingEnv.mk [0, -2, 0, 0] [] 1 0 1).resetState [1, -1]).nav) := by
  have h0 : ((HedgingEnv.mk [0, -2, 0, 0] [] 1 0 1).stepMany (fun _ _ => 0)
      (HedgingEnv.mk [0, -2, 0, 0] [] 1 0 1).resetState [1, -1]).nav = -1 := by
    norm_num [HedgingEnv.stepMany, HedgingEnv.step, HedgingEnv.resetState,
      HedgingEnv.T, clipQ, List.getD, List.foldl]
  have h1 : ((HedgingEnv.mk [0, -2, 0, 0] [] 1 10000 1).stepMany (fun _ _ => 0)
      (HedgingEnv.mk [0, -2, 0, 0] [] 1 10000 1).resetState [1, -1]).nav = 2 := by
    norm_num [HedgingEnv.stepMany, HedgingEnv.step, HedgingEnv.resetState,
      HedgingEnv.T, clipQ, List.getD, List.foldl]
  refine ⟨by norm_num, h0, h1, ?_⟩
  rw [h0, h1]
  norm_num

/-- Pointwise comparison of two episodes that differ only in the cost
setting `b1 ≤ b2`: as long as all growth factors at the higher cost stay
positive and every action in the list is actually executed, the
higher-cost NAV stays positive, never exceeds the lower-cost NAV, strictness
is preserved, a position change introduces strictness (when `b1 < b2`), and
without any position change the NAVs agree. -/
theorem stepMany_nav_compare (R : List ℚ) (X : List (List ℚ)) (window : ℕ)
    (lim b1 b2 : ℚ) (rf1 rf2 : ℚ → StepInfo → ℚ) (hb : b1 ≤ b2) :
    ∀ (acts : List ℚ) (t : ℕ) (p n1 n2 : ℚ),
      t + acts.length + 1 ≤ R.length →
      stepFactorsPos (b2 * (1/10000)) lim R t p acts = true →
      0 < n2 → n2 ≤ n1 →
      0 < ((HedgingEnv.mk R X window b2 lim).stepMany rf2 ⟨t, n2, p, false⟩ acts).nav ∧
      (((HedgingEnv.mk R X window b2 lim).stepMany rf2 ⟨t, n2, p, false⟩ acts).nav ≤
        ((HedgingEnv.mk R X window b1 lim).stepMany rf1 ⟨t, n1, p, false⟩ acts).nav) ∧
      (n2 < n1 →
        ((HedgingEnv.mk R X window b2 lim).stepMany rf2 ⟨t, n2, p, false⟩ acts).nav <
          ((HedgingEnv.mk R X window b1 lim).stepMany rf1 ⟨t, n1, p, false⟩ acts).nav) ∧
      (b1 < b2 → posChanges lim p acts = true → n1 = n2 →
        ((HedgingEnv.mk R X window b2 lim).stepMany rf2 ⟨t, n2, p, false⟩ acts).nav <
          ((HedgingEnv.mk R X window b1 lim).stepMany rf1 ⟨t, n1, p, false⟩ acts).nav) ∧
      (posChanges lim p acts = false → n1 = n2 →
        ((HedgingEnv.mk R X window b2 lim).stepMany rf2 ⟨t, n2, p, false⟩ acts).nav =
          ((HedgingEnv.mk R X window b1 lim).stepMany rf1 ⟨t, n1, p, false⟩ acts).nav) := by
  intro acts
  induction acts with
  | nil =>
    intro t p n1 n2 _ _ h02 h21
    refine ⟨h02, h21, fun h => h, ?_, fun _ h12 => h12.symm⟩
    intro _ hch _
    simp [posChanges] at hch
  | cons a as ih =>
    intro t p n1 n2 hlen hpos h02 h21
    set F1 := stepFactor (b1 * (1/10000)) lim R t p a with hF1def
    set F2 := stepFactor (b2 * (1/10000)) lim R t p a with hF2def
    have hposh := hpos
    rw [stepFactorsPos_cons] at hposh
    simp only [Bool.and_eq_true, decide_eq_true_eq] at hposh
    have hF2pos : 0 < F2 := hposh.1
    have hdiff : F1 - F2 = ((b2 - b1) * (1/10000)) * |clipQ lim a - p| := by
      rw [hF1def, hF2def]
      unfold stepFactor
      ring
    have hF21 : F2 ≤ F1 := by
      have h1 : 0 ≤ ((b2 - b1) * (1/10000)) * |clipQ lim a - p| :=
        mul_nonneg (by linarith) (abs_nonneg _)
      linarith
    have h01 : 0 < n1 := lt_of_lt_of_le h02 h21
    -- the stepped states at the two cost levels
    have hstep1 : ((HedgingEnv.mk R X window b1 lim).step rf1 ⟨t, n1, p, false⟩ a).1 =
        ⟨t + 1, n1 * F1, clipQ lim a,
         decide ((HedgingEnv.mk R X window b1 lim).T - 1 ≤ t + 1)⟩ :=
      step_explicit _ rf1 ⟨t, n1, p, false⟩ a rfl
    have hstep2 : ((HedgingEnv.mk R X window b2 lim).step rf2 ⟨t, n2, p, false⟩ a).1 =
        ⟨t + 1, n2 * F2, clipQ lim a,
         decide ((HedgingEnv.mk R X window b2 lim).T - 1 ≤ t + 1)⟩ :=
      step_explicit _ rf2 ⟨t, n2, p, false⟩ a rfl
    have hmany1 : (HedgingEnv.mk R X window b1 lim).stepMany rf1 ⟨t, n1, p, false⟩ (a :: as) =
        (HedgingEnv.mk R X window b1 lim).stepMany rf1
          ⟨t + 1, n1 * F1, clipQ lim a,
           decide ((HedgingEnv.mk R X window b1 lim).T - 1 ≤ t + 1)⟩ as := by
      show (HedgingEnv.mk R X window b1 lim).stepMany rf1
          ((HedgingEnv.mk R X window b1 lim).step rf1 ⟨t, n1, p, false⟩ a).1 as = _
      rw [hstep1]
    have hmany2 : (HedgingEnv.mk R X window b2 lim).stepMany rf2 ⟨t, n2, p, false⟩ (a :: as) =
        (HedgingEnv.mk R X window b2 lim).stepMany rf2
          ⟨t + 1, n2 * F2, clipQ lim a,
           decide ((HedgingEnv.mk R X window b2 lim).T - 1 ≤ t + 1)⟩ as := by
      show (HedgingEnv.mk R X window b2 lim).stepMany rf2
          ((HedgingEnv.mk R X window b2 lim).step rf2 ⟨t, n2, p, false⟩ a).1 as = _
      rw [hstep2]
    -- basic one-step inequalities
    have hle : n2 * F2 ≤ n1 * F1 :=
      le_trans (mul_le_mul_of_nonneg_right h21 (le_of_lt hF2pos))
        (mul_le_mul_of_nonneg_left hF21 (le_of_lt h01))
    have hposnav : 0 < n2 * F2 := mul_pos h02 hF2pos
    cases as with
    | nil =>
      rw [hmany1, hmany2]
      simp only [HedgingEnv.stepMany, List.foldl_nil]
      refine ⟨hposnav, hle, ?_, ?_, ?_⟩
      · intro h12
        exact lt_of_lt_of_le
          (mul_lt_mul_of_pos_right h12 hF2pos)
          (mul_le_mul_of_nonneg_left hF21 (le_of_lt h01))
      · intro hblt hch h12
        rw [posChanges_cons] at hch
        simp only [Bool.or_eq_true, decide_eq_true_eq] at hch
        have hne : clipQ lim a ≠ p := by
          rcases hch with h | h
          · exact h
          · simp [posChanges] at h
        have habs : 0 < |clipQ lim a - p| :=
          abs_pos.mpr (sub_ne_zero.mpr hne)
        have hstrict : F2 < F1 := by
          have : 0 < ((b2 - b1) * (1/10000)) * |clipQ lim a - p| :=
            mul_pos (by linarith) habs
          linarith
        calc n2 * F2 < n2 * F1 := mul_lt_mul_of_pos_left hstrict h02
          _ = n1 * F1 := by rw [h12]
      · intro hch h12
        rw [posChanges_cons] at hch
        simp only [Bool.or_eq_false_iff, decide_eq_false_iff_not] at hch
        have heq : clipQ lim a = p := not_not.mp (fun h => hch.1 h)
        have hFeq : F1 = F2 := by
          rw [hF1def, hF2def]
          unfold stepFactor
          rw [heq, sub_self, abs_zero, mul_zero, mul_zero]
        rw [h12, hFeq]
    | cons a' as' =>
      have hd1 : decide ((HedgingEnv.mk R X window b1 lim).T - 1 ≤ t + 1) = false := by
        simp only [decide_eq_false_iff_not, HedgingEnv.T]
        simp only [List.length_cons] at hlen
        omega
      have hd2 : decide ((HedgingEnv.mk R X window b2 lim).T - 1 ≤ t + 1) = false := by
        simp only [decide_eq_false_iff_not, HedgingEnv.T]
        simp only [List.length_cons] at hlen
        omega
      rw [hmany1, hmany2, hd1, hd2]
      have hlen' : (t + 1) + (a' :: as').length + 1 ≤ R.length := by
        simp only [List.length_cons] at hlen ⊢
        omega
      have ihres := ih (t + 1) (clipQ lim a) (n1 * F1) (n2 * F2) hlen'
        hposh.2 hposnav hle
      refine ⟨ihres.1, ihres.2.1, ?_, ?_, ?_⟩
      · intro h12
        have : n2 * F2 < n1 * F1 :=
          lt_of_lt_of_le (mul_lt_mul_of_pos_right h12 hF2pos)
            (mul_le_mul_of_nonneg_left hF21 (le_of_lt h01))
        exact ihres.2.2.1 this
      · intro hblt hch h12
        rw [posChanges_cons] at hch
        simp only [Bool.or_eq_true, decide_eq_true_eq] at hch
        by_cases hne : clipQ lim a = p
        · have htail : posChanges lim (clipQ lim a) (a' :: as') = true := by
            rcases hch with h | h
            · exact absurd hne h
            · exact h
          have hFeq : F1 = F2 := by
            rw [hF1def, hF2def]
            unfold stepFactor
            rw [hne, sub_self, abs_zero, mul_zero, mul_zero]
          exact ihres.2.2.2.1 hblt htail (by rw [h12, hFeq])
        · have habs : 0 < |clipQ lim a - p| :=
            abs_pos.mpr (sub_ne_zero.mpr hne)
          have hstrict : F2 < F1 := by
            have : 0 < ((b2 - b1) * (1/10000)) * |clipQ lim a - p| :=
              mul_pos (by linarith) habs
            linarith
          have : n2 * F2 < n1 * F1 := by
            calc n2 * F2 < n2 * F1 := mul_lt_mul_of_pos_left hstrict h02
              _ = n1 * F1 := by rw [h12]
          exact ihres.2.2.1 this
      · intro hch h12
        rw [posChanges_cons] at hch
        simp only [Bool.or_eq_false_iff, decide_eq_false_iff_not] at hch
        have heq : clipQ lim a = p := not_not.mp (fun h => hch.1 h)
        have hFeq : F1 = F2 := by
          rw [hF1def, hF2def]
          unfold stepFactor
          rw [heq, sub_self, abs_zero, mul_zero, mul_zero]
        exact ihres.2.2.2.2 hch.2 (by rw [h12, hFeq])

/-- C3 as amended: for a fixed action sequence driven through
reset-then-step, with all actions executed inside the episode and every
per-step growth factor positive at the higher cost level `b2`, the final NAV
with `txn_cost_bps = b2` is at most the final NAV with `b1 ≤ b2`; the
inequality is strict when `b1 < b2` and the clipped position changes at some
step, and the NAVs are exactly equal when the position never changes.  (The
growth-factor condition is necessary: see the counterexample, where a factor
turns NAV negative and the ordering reverses; strictness also genuinely
requires `b1 < b2`, not merely `b1 ≤ b2`.) -/
theorem cost_monotonicity (R : List ℚ) (X : List (List ℚ)) (window : ℕ)
    (lim b1 b2 : ℚ) (rf : ℚ → StepInfo → ℚ) (acts : List ℚ)
    (hb : b1 ≤ b2)
    (hlen : window + acts.length + 1 ≤ R.length)
    (hpos : stepFactorsPos (b2 * (1/10000)) lim R window 0 acts = true) :
    (((HedgingEnv.mk R X window b2 lim).stepMany rf
        (HedgingEnv.mk R X window b2 lim).resetState acts).nav ≤
      ((HedgingEnv.mk R X window b1 lim).stepMany rf
        (HedgingEnv.mk R X window b1 lim).resetState acts).nav) ∧
    (b1 < b2 → posChanges lim 0 acts = true →
      ((HedgingEnv.mk R X window b2 lim).stepMany rf
          (HedgingEnv.mk R X window b2 lim).resetState acts).nav <
        ((HedgingEnv.mk R X window b1 lim).stepMany rf
          (HedgingEnv.mk R X window b1 lim).resetState acts).nav) ∧
    (posChanges lim 0 acts = false →
      ((HedgingEnv.mk R X window b2 lim).stepMany rf
          (HedgingEnv.mk R X window b2 lim).resetState acts).nav =
        ((HedgingEnv.mk R X window b1 lim).stepMany rf
          (HedgingEnv.mk R X window b1 lim).resetState acts).nav) := by
  have h := stepMany_nav_compare R X window lim b1 b2 rf rf hb acts window 0 1 1
    hlen hpos one_pos le_rfl
  exact ⟨h.2.1, fun hlt hch => h.2.2.2.1 hlt hch rfl,
    fun hch => h.2.2.2.2 hch rfl⟩

/-- Witness for the amended C3: returns `[0, 5, 0]`, `window = 1`,
`pos_limit = 1`, costs `0 ≤ 1`, single action `[1]`. -/
theorem cost_monotonicity_witness :
    ((0 : ℚ) ≤ 1) ∧
    (1 + [(1 : ℚ)].length + 1 ≤ [(0 : ℚ), 5, 0].length) ∧
    (stepFactorsPos (1 * (1/10000)) 1 [0, 5, 0] 1 0 [1] = true) ∧
    ((((HedgingEnv.mk [0, 5, 0] [] 1 1 1).stepMany (fun _ _ => 0)
        (HedgingEnv.mk [0, 5, 0] [] 1 1 1).resetState [1]).nav ≤
      ((HedgingEnv.mk [0, 5, 0] [] 1 0 1).stepMany (fun _ _ => 0)
        (HedgingEnv.mk [0, 5, 0] [] 1 0 1).resetState [1]).nav) ∧
     ((0 : ℚ) < 1 → posChanges 1 0 [1] = true →
      ((HedgingEnv.mk [0, 5, 0] [] 1 1 1).stepMany (fun _ _ => 0)
          (HedgingEnv.mk [0, 5, 0] [] 1 1 1).resetState [1]).nav <
        ((HedgingEnv.mk [0, 5, 0] [] 1 0 1).stepMany (fun _ _ => 0)
          (HedgingEnv.mk [0, 5, 0] [] 1 0 1).resetState [1]).nav) ∧
     (posChanges 1 0 [1] = false →
      ((HedgingEnv.mk [0, 5, 0] [] 1 1 1).stepMany (fun _ _ => 0)
          (HedgingEnv.mk [0, 5, 0] [] 1 1 1).resetState [1]).nav =
        ((HedgingEnv.mk [0, 5, 0] [] 1 0 1).stepMany (fun _ _ => 0)
          (HedgingEnv.mk [0, 5, 0] [] 1 0 1).resetState [1]).nav)) := by
  have hfact : stepFactorsPos (1 * (1/10000)) 1 [0, 5, 0] 1 0 [1] = true := by
    norm_num [stepFactorsPos, stepFactor, clipQ, List.getD]
  refine ⟨by norm_num, by norm_num, hfact, ?_⟩
  exact cost_monotonicity [0, 5, 0] [] 1 1 0 1 (fun _ _ => 0) [1]
    (by norm_num) (by norm_num) hfact

/-! ## PathGenerator (spec section 4.3) -/

/-- One GBM update: each column `j` of the previous row is multiplied by
`exp((mu - sigma^2/2) * dt + sigma * sqrt(dt) * z[t][j])`. -/
def gbmStepRow (expf : ℚ → ℚ) (normals : ℕ → ℕ → ℕ → ℚ)
    (mu sigma dt sqrtdt : ℚ) (seed t : ℕ) (prev : List ℚ) : List ℚ :=
  prev.mapIdx (fun j x =>
    x * expf ((mu - sigma ^ 2 / 2) * dt + sigma * sqrtdt * normals seed t j))

/-- The rows from step index `t` on: the current row followed by `n` updates. -/
def gbmRows (expf : ℚ → ℚ) (normals : ℕ → ℕ → ℕ → ℚ)
    (mu sigma dt sqrtdt : ℚ) (seed : ℕ) : ℕ → ℕ → List ℚ → List (List ℚ)
  | 0, _, row => [row]
  | n + 1, t, row =>
    row :: gbmRows expf normals mu sigma dt sqrtdt seed n (t + 1)
      (gbmStepRow expf normals mu sigma dt sqrtdt seed t row)

/-- Modelled from the spec: the GBM path generator (`PathGenerator` /
`gbm_paths`, spec section 4.3) is part of this repository's core but its
source file is not under `src/`; it is modelled from the spec's words.
Output is a `(n_steps+1) x n_paths` matrix whose row 0 is `s0` everywhere
and whose row `t+1` is `s[t] * exp((mu - sigma^2/2)*dt + sigma*sqrt(dt)*z[t])`
with `z` drawn deterministically from the seed.  The transcendental `exp`,
the value `sqrt(dt)` and the seeded standard-normal stream are abstracted as
explicit parameters (`expf`, `sqrtdt`, `normals seed step path`), which keeps
the model executable; the claims settled against it concern reproducibility
and the initial row, which do not depend on those parameters' values. -/
def gbm_paths (expf : ℚ → ℚ) (normals : ℕ → ℕ → ℕ → ℚ)
    (s0 mu sigma dt sqrtdt : ℚ) (n_steps n_paths seed : ℕ) : List (List ℚ) :=
  gbmRows expf normals mu sigma dt sqrtdt seed n_steps 0
    (List.replicate n_paths s0)

theorem gbmRows_head (expf : ℚ → ℚ) (normals : ℕ → ℕ → ℕ → ℚ)
    (mu sigma dt sqrtdt : ℚ) (seed : ℕ) :
    ∀ (n t : ℕ) (row : List ℚ),
      (gbmRows expf normals mu sigma dt sqrtdt seed n t row).head? = some row := by
  intro n t row
  cases n <;> rfl

theorem gbmRows_length (expf : ℚ → ℚ) (normals : ℕ → ℕ → ℕ → ℚ)
    (mu sigma dt sqrtdt : ℚ) (seed : ℕ) :
    ∀ (n t : ℕ) (row : List ℚ),
      (gbmRows expf normals mu sigma dt sqrtdt seed n t row).length = n + 1 := by
  intro n
  induction n with
  | zero => intro t row; rfl
  | succ m ih =>
    intro t row
    simp only [gbmRows, List.length_cons, ih]

/-- C9: the GBM path generator called twice with the spec's arguments
(`s0=100, mu=0.05, sigma=0.2, dt=1/252, n_steps=10, n_paths=1, seed=42`)
yields identical matrices (it is a deterministic function of the seed and
the other arguments), the matrix has `n_steps + 1 = 11` rows, and row 0
equals `[100]` exactly. -/
theorem gbm_reproducible (expf : ℚ → ℚ) (normals : ℕ → ℕ → ℕ → ℚ)
    (sqrtdt : ℚ) :
    gbm_paths expf normals 100 (5/100) (2/10) (1/252) sqrtdt 10 1 42 =
      gbm_paths expf normals 100 (5/100) (2/10) (1/252) sqrtdt 10 1 42 ∧
    (gbm_paths expf normals 100 (5/100) (2/10) (1/252) sqrtdt 10 1 42).head? =
      some [(100 : ℚ)] ∧
    (gbm_paths expf normals 100 (5/100) (2/10) (1/252) sqrtdt 10 1 42).length =
      10 + 1 := by
  refine ⟨rfl, ?_, ?_⟩
  · rw [gbm_paths, gbmRows_head]
    rfl
  · rw [gbm_paths, gbmRows_length]

/-! ## Vol-surface feature selection (`src/simulator/features.py`)

pandas `sort_values` over several numeric columns sorts lexicographically
and stably (`numpy.lexsort`); `drop_duplicates(col)` and
`groupby(col).first()` keep the first row per key of that stable order.  We
embed the sort as Mathlib's stable `List.insertionSort` under a
lexicographic relation, and prove it equal to the per-key
earliest-minimiser selection that the specification describes. -/

/-- Lexicographic `≤` on a triple of sort keys. -/
def kle (u v : ℚ × ℚ × ℚ) : Prop :=
  u.1 < v.1 ∨ (u.1 = v.1 ∧ (u.2.1 < v.2.1 ∨ (u.2.1 = v.2.1 ∧ u.2.2 ≤ v.2.2)))

instance kle.instDec : ∀ u v, Decidable (kle u v) := fun u v => by
  unfold kle
  infer_instance

theorem kle_refl (u : ℚ × ℚ × ℚ) : kle u u := by
  unfold kle
  tauto

theorem kle_total (u v : ℚ × ℚ × ℚ) : kle u v ∨ kle v u := by
  unfold kle
  rcases lt_trichotomy u.1 v.1 with h | h | h
  · tauto
  · rcases lt_trichotomy u.2.1 v.2.1 with h2 | h2 | h2
    · tauto
    · rcases le_total u.2.2 v.2.2 with h3 | h3 <;> tauto
    · tauto
  · tauto

theorem kle_trans {u v w : ℚ × ℚ × ℚ} (h1 : kle u v) (h2 : kle v w) :
    kle u w := by
  unfold kle at h1 h2 ⊢
  rcases h1 with h1 | ⟨e1, h1⟩
  · rcases h2 with h2 | ⟨e2, _⟩
    · exact Or.inl (lt_trans h1 h2)
    · exact Or.inl (e2 ▸ h1)
  · rcases h2 with h2 | ⟨e2, h2⟩
    · exact Or.inl (e1 ▸ h2)
    · refine Or.inr ⟨e1.trans e2, ?_⟩
      rcases h1 with h1 | ⟨f1, h1⟩
      · rcases h2 with h2 | ⟨f2, _⟩
        · exact Or.inl (lt_trans h1 h2)
        · exact Or.inl (f2 ▸ h1)
      · rcases h2 with h2 | ⟨f2, h2⟩
        · exact Or.inl (f1 ▸ h2)
        · exact Or.inr ⟨f1.trans f2, h1.trans h2⟩

theorem kle_of_not_kle {u v : ℚ × ℚ × ℚ} (h : ¬ kle u v) : kle v u :=
  (kle_total u v).resolve_left h

/-- The order pandas sorts rows by: the grouping key (an integer encoding of
the leading sort columns), then the remaining key columns lexicographically. -/
def lexRel {α : Type} (g : α → ℤ) (k : α → ℚ × ℚ × ℚ) (a b : α) : Prop :=
  g a < g b ∨ (g a = g b ∧ kle (k a) (k b))

instance lexRel.instDec {α : Type} (g : α → ℤ) (k : α → ℚ × ℚ × ℚ) :
    DecidableRel (lexRel g k) := fun a b => by
  unfold lexRel
  infer_instance

instance lexRel.instTotal {α : Type} (g : α → ℤ) (k : α → ℚ × ℚ × ℚ) :
    IsTotal α (lexRel g k) := by
  constructor
  intro a b
  unfold lexRel
  rcases lt_trichotomy (g a) (g b) with h | h | h
  · tauto
  · rcases kle_total (k a) (k b) with h2 | h2 <;> tauto
  · tauto

instance lexRel.instTrans {α : Type} (g : α → ℤ) (k : α → ℚ × ℚ × ℚ) :
    IsTrans α (lexRel g k) := by
  constructor
  intro a b c h1 h2
  unfold lexRel at h1 h2 ⊢
  rcases h1 with h1 | ⟨e1, h1⟩
  · rcases h2 with h2 | ⟨e2, _⟩
    · exact Or.inl (lt_trans h1 h2)
    · exact Or.inl (e2 ▸ h1)
  · rcases h2 with h2 | ⟨e2, h2⟩
    · exact Or.inl (e1 ▸ h2)
    · exact Or.inr ⟨e1.trans e2, kle_trans h1 h2⟩

/-- pandas `drop_duplicates(key)` / `groupby(key).first()` applied to an
already sorted frame: keep the first row for each value of `g`. -/
def dedupG {α : Type} (g : α → ℤ) : List α → List α
  | [] => []
  | q :: l => q :: dedupG g (l.filter (fun x => decide (g x ≠ g q)))
termination_by l => l.length
decreasing_by
  simp only [List.length_cons]
  exact Nat.lt_succ_of_le (List.length_filter_le _ _)

theorem dedupG_nil {α : Type} (g : α → ℤ) : dedupG g [] = [] := by
  rw [dedupG]

theorem dedupG_cons {α : Type} (g : α → ℤ) (q : α) (l : List α) :
    dedupG g (q :: l) =
      q :: dedupG g (l.filter (fun x => decide (g x ≠ g q))) := by
  rw [dedupG]

/-- Insert a key into a sorted list of distinct keys (used to describe "the
distinct group keys in ascending order"). -/
def insertKey (d : ℤ) : List ℤ → List ℤ
  | [] => [d]
  | e :: es =>
    if d < e then d :: e :: es
    else if d = e then e :: es
    else e :: insertKey d es

/-- The distinct values of `g` over the list, in ascending order. -/
def keysSorted {α : Type} (g : α → ℤ) (l : List α) : List ℤ :=
  l.foldr (fun q D => insertKey (g q) D) []

/-- The first element attaining the lexicographic minimum of `k` — i.e. the
best-ranked row, ties broken by input order. -/
def argminStable {α : Type} (k : α → ℚ × ℚ × ℚ) : List α → Option α
  | [] => none
  | q :: l => some (l.foldl (fun b x => if kle (k b) (k x) then b else x) q)

/-- The specification's selection: for each group key in ascending order,
the input-earliest row minimising the ranking key within that group. -/
def bestPerKey {α : Type} (g : α → ℤ) (k : α → ℚ × ℚ × ℚ) (l : List α) :
    List α :=
  (keysSorted g l).filterMap
    (fun d => argminStable k (l.filter (fun x => decide (g x = d))))

/-- Updating a per-group-best list with one more (input-earlier) row:
insert at its key position, replacing the representative whenever the new
row ranks at least as well (`kle`, so ties go to the new, earlier row). -/
def insertRep {α : Type} (g : α → ℤ) (k : α → ℚ × ℚ × ℚ) (q : α) :
    List α → List α
  | [] => [q]
  | m :: ms =>
    if g q < g m then q :: m :: ms
    else if g q = g m then (if kle (k q) (k m) then q :: ms else m :: ms)
    else m :: insertRep g k q ms

theorem argmin_foldl {α : Type} (k : α → ℚ × ℚ × ℚ) :
    ∀ (l : List α) (b : α),
      l.foldl (fun b x => if kle (k b) (k x) then b else x) b =
        (match argminStable k l with
         | none => b
         | some m => if kle (k b) (k m) then b else m) := by
  intro l
  induction l with
  | nil => intro b; rfl
  | cons x t ih =>
    intro b
    show t.foldl _ (if kle (k b) (k x) then b else x) = _
    rw [ih (if kle (k b) (k x) then b else x)]
    have hx : argminStable k (x :: t) =
        some (t.foldl (fun b x => if kle (k b) (k x) then b else x) x) := rfl
    rw [hx, ih x]
    cases ht : argminStable k t with
    | none =>
      simp only
    | some m =>
      simp only
      by_cases hxm : kle (k x) (k m) <;> by_cases hbx : kle (k b) (k x)
      · have hbm : kle (k b) (k m) := kle_trans hbx hxm
        simp [hxm, hbx, hbm]
      · simp [hxm, hbx]
      · simp [hxm, hbx]
      · have hmx : kle (k m) (k x) := kle_of_not_kle hxm
        have hbm : ¬ kle (k b) (k m) := fun h => hbx (kle_trans h hmx)
        simp [hxm, hbx, hbm]

theorem argminStable_cons {α : Type} (k : α → ℚ × ℚ × ℚ) (q : α)
    (l : List α) :
    argminStable k (q :: l) =
      some (match argminStable k l with
            | none => q
            | some m => if kle (k q) (k m) then q else m) := by
  show some (l.foldl _ q) = _
  rw [argmin_foldl k l q]

theorem argminStable_mem {α : Type} (k : α → ℚ × ℚ × ℚ) :
    ∀ (l : List α) (m : α), argminStable k l = some m → m ∈ l := by
  intro l
  induction l with
  | nil => intro m h; exact absurd h (by simp [argminStable])
  | cons q t ih =>
    intro m h
    rw [argminStable_cons] at h
    cases ht : argminStable k t with
    | none =>
      rw [ht] at h
      simp only [Option.some_inj] at h
      exact h ▸ List.mem_cons_self q t
    | some m' =>
      rw [ht] at h
      simp only [Option.some_inj] at h
      by_cases hq : kle (k q) (k m')
      · rw [if_pos hq] at h
        exact h ▸ List.mem_cons_self q t
      · rw [if_neg hq] at h
        exact h ▸ List.mem_cons_of_mem q (ih m' ht)

theorem argminStable_ne_none {α : Type} (k : α → ℚ × ℚ × ℚ) (l : List α)
    (h : l ≠ []) : ∃ m, argminStable k l = some m := by
  cases l with
  | nil => exact absurd rfl h
  | cons q t => exact ⟨_, rfl⟩

theorem insertKey_mem (d : ℤ) : ∀ (D : List ℤ) (e : ℤ),
    e ∈ insertKey d D ↔ e = d ∨ e ∈ D := by
  intro D
  induction D with
  | nil => intro e; simp [insertKey]
  | cons f fs ih =>
    intro e
    unfold insertKey
    by_cases h1 : d < f
    · rw [if_pos h1]
      simp [List.mem_cons]
    · rw [if_neg h1]
      by_cases h2 : d = f
      · rw [if_pos h2]
        subst h2
        simp only [List.mem_cons]
        tauto
      · rw [if_neg h2]
        simp only [List.mem_cons, ih e]
        tauto

theorem insertKey_pairwise (d : ℤ) : ∀ (D : List ℤ),
    D.Pairwise (· < ·) → (insertKey d D).Pairwise (· < ·) := by
  intro D
  induction D with
  | nil => intro _; simp [insertKey]
  | cons f fs ih =>
    intro hp
    rw [List.pairwise_cons] at hp
    unfold insertKey
    by_cases h1 : d < f
    · rw [if_pos h1]
      refine List.Pairwise.cons ?_ (List.Pairwise.cons hp.1 hp.2)
      intro b hb
      rcases List.mem_cons.mp hb with rfl | hb
      · exact h1
      · exact lt_trans h1 (hp.1 b hb)
    · rw [if_neg h1]
      by_cases h2 : d = f
      · rw [if_pos h2]
        exact List.Pairwise.cons hp.1 hp.2
      · rw [if_neg h2]
        refine List.Pairwise.cons ?_ (ih hp.2)
        intro b hb
        rcases (insertKey_mem d fs b).mp hb with rfl | hb
        · omega
        · exact hp.1 b hb

theorem keysSorted_cons {α : Type} (g : α → ℤ) (q : α) (l : List α) :
    keysSorted g (q :: l) = insertKey (g q) (keysSorted g l) := rfl

theorem keysSorted_pairwise {α : Type} (g : α → ℤ) :
    ∀ (l : List α), (keysSorted g l).Pairwise (· < ·) := by
  intro l
  induction l with
  | nil => simp [keysSorted]
  | cons q t ih =>
    rw [keysSorted_cons]
    exact insertKey_pairwise _ _ ih

theorem keysSorted_mem {α : Type} (g : α → ℤ) :
    ∀ (l : List α) (d : ℤ), d ∈ keysSorted g l ↔ ∃ x ∈ l, g x = d := by
  intro l
  induction l with
  | nil => intro d; simp [keysSorted]
  | cons q t ih =>
    intro d
    rw [keysSorted_cons, insertKey_mem]
    simp only [List.mem_cons, ih d]
    constructor
    · rintro (rfl | ⟨x, hx, rfl⟩)
      · exact ⟨q, Or.inl rfl, rfl⟩
      · exact ⟨x, Or.inr hx, rfl⟩
    · rintro ⟨x, hx | hx, rfl⟩
      · exact Or.inl (by rw [hx])
      · exact Or.inr ⟨x, hx, rfl⟩

theorem orderedInsert_all {α : Type} (r : α → α → Prop) [DecidableRel r]
    (q : α) : ∀ (t : List α), (∀ y ∈ t, r q y) →
      List.orderedInsert r q t = q :: t := by
  intro t h
  cases t with
  | nil => rfl
  | cons c t' => exact List.orderedInsert_of_le r t' (h c (List.mem_cons_self c t'))

theorem filter_orderedInsert_neg {α : Type} (r : α → α → Prop)
    [DecidableRel r] (p : α → Bool) (q : α) (hq : p q = false) :
    ∀ (t : List α),
      (List.orderedInsert r q t).filter p = t.filter p := by
  intro t
  induction t with
  | nil => simp [List.orderedInsert, List.filter_cons, hq]
  | cons c t' ih =>
    show (if r q c then q :: c :: t' else c :: List.orderedInsert r q t').filter p = _
    by_cases hrc : r q c
    · rw [if_pos hrc, List.filter_cons, hq]
      simp only [Bool.false_eq_true, if_false]
    · rw [if_neg hrc, List.filter_cons, List.filter_cons, ih]

theorem filter_orderedInsert_pos {α : Type} (r : α → α → Prop)
    [DecidableRel r] (htr : ∀ {a b c : α}, r a b → r b c → r a c)
    (p : α → Bool) (q : α) (hq : p q = true) :
    ∀ (t : List α), t.Pairwise r →
      (List.orderedInsert r q t).filter p =
        List.orderedInsert r q (t.filter p) := by
  intro t
  induction t with
  | nil => simp [List.orderedInsert, List.filter_cons, hq]
  | cons c t' ih =>
    intro hp
    rw [List.pairwise_cons] at hp
    show (if r q c then q :: c :: t' else c :: List.orderedInsert r q t').filter p = _
    by_cases hrc : r q c
    · rw [if_pos hrc, List.filter_cons, hq, if_pos rfl]
      rw [orderedInsert_all r q ((c :: t').filter p) ?_]
      intro y hy
      rw [List.mem_filter] at hy
      rcases List.mem_cons.mp hy.1 with rfl | hy'
      · exact hrc
      · exact htr hrc (hp.1 y hy')
    · rw [if_neg hrc, List.filter_cons, List.filter_cons]
      by_cases hpc : p c = true
      · rw [if_pos hpc, if_pos hpc, ih hp.2]
        show _ = if r q c then q :: c :: t'.filter p else c :: List.orderedInsert r q (t'.filter p)
        rw [if_neg hrc]
      · rw [if_neg hpc, if_neg hpc, ih hp.2]

theorem lexRel_trans_lem {α : Type} {g : α → ℤ} {k : α → ℚ × ℚ × ℚ}
    {a b c : α} (h1 : lexRel g k a b) (h2 : lexRel g k b c) :
    lexRel g k a c := IsTrans.trans a b c h1 h2

theorem dedupG_orderedInsert {α : Type} (g : α → ℤ) (k : α → ℚ × ℚ × ℚ)
    (q : α) :
    ∀ (n : ℕ) (s : List α), s.length ≤ n → s.Pairwise (lexRel g k) →
      dedupG g (List.orderedInsert (lexRel g k) q s) =
        insertRep g k q (dedupG g s) := by
  intro n
  induction n with
  | zero =>
    intro s hlen _
    have hs : s = [] := List.length_eq_zero.mp (Nat.le_zero.mp hlen)
    subst hs
    show dedupG g [q] = insertRep g k q (dedupG g [])
    rw [dedupG_nil, dedupG_cons]
    simp [insertRep, dedupG_nil]
  | succ n ih =>
    intro s hlen hp
    cases s with
    | nil =>
      show dedupG g [q] = insertRep g k q (dedupG g [])
      rw [dedupG_nil, dedupG_cons]
      simp [insertRep, dedupG_nil]
    | cons b s' =>
      rw [List.pairwise_cons] at hp
      simp only [List.length_cons, Nat.add_le_add_iff_right] at hlen
      by_cases hqb : lexRel g k q b
      · rw [List.orderedInsert, if_pos hqb]
        rcases hqb with hlt | ⟨heq, hkle⟩
        · -- g q < g b: q goes strictly in front, nothing shares its key
          rw [dedupG_cons]
          have hfil : (b :: s').filter (fun x => decide (g x ≠ g q)) = b :: s' := by
            rw [List.filter_eq_self]
            intro a ha
            simp only [decide_eq_true_eq]
            rcases List.mem_cons.mp ha with rfl | ha'
            · omega
            · have hba : g b ≤ g a := by
                rcases hp.1 a ha' with h | ⟨h, _⟩
                · omega
                · omega
              omega
          rw [hfil, dedupG_cons]
          show _ = insertRep g k q (b :: _)
          simp only [insertRep]
          rw [if_pos hlt]
        · -- g q = g b with k q ≤ k b: q replaces b as the representative
          rw [dedupG_cons]
          have hfil : (b :: s').filter (fun x => decide (g x ≠ g q)) =
              s'.filter (fun x => decide (g x ≠ g b)) := by
            rw [List.filter_cons]
            have : (decide (g b ≠ g q)) = false := by
              simp only [decide_eq_false_iff_not, ne_eq, not_not]
              omega
            rw [this]
            simp only [Bool.false_eq_true, if_false]
            have : (fun x => decide (g x ≠ g q)) = (fun x => decide (g x ≠ g b)) := by
              funext x
              rw [heq]
            rw [this]
          rw [hfil, dedupG_cons]
          show _ = insertRep g k q (b :: _)
          simp only [insertRep]
          rw [if_neg (by omega), if_pos heq, if_pos hkle]
      · -- q inserted after b
        rw [List.orderedInsert, if_neg hqb]
        have hbq : lexRel g k b q := (IsTotal.total b q).resolve_right hqb
        have hnot : ¬ (g q < g b) ∧ ¬ (g q = g b ∧ kle (k q) (k b)) := by
          constructor
          · intro h
            exact hqb (Or.inl h)
          · intro h
            exact hqb (Or.inr h)
        rw [dedupG_cons, dedupG_cons]
        by_cases heq : g q = g b
        · have hnk : ¬ kle (k q) (k b) := fun h => hnot.2 ⟨heq, h⟩
          have hpq : (fun x => decide (g x ≠ g b)) q = false := by
            simp only [decide_eq_false_iff_not, ne_eq, not_not]
            omega
          rw [filter_orderedInsert_neg (lexRel g k) _ q hpq s']
          show _ = insertRep g k q (b :: _)
          simp only [insertRep]
          rw [if_neg hnot.1, if_pos heq, if_neg hnk]
        · have hgt : g b < g q := by
            rcases hbq with h | ⟨h, _⟩
            · exact h
            · omega
          have hpq : (fun x => decide (g x ≠ g b)) q = true := by
            simp only [decide_eq_true_eq, ne_eq]
            omega
          rw [filter_orderedInsert_pos (lexRel g k)
            (fun h1 h2 => lexRel_trans_lem h1 h2) _ q hpq s' hp.2]
          rw [ih (s'.filter (fun x => decide (g x ≠ g b)))
            (le_trans (List.length_filter_le _ _) hlen)
            (List.Pairwise.filter _ hp.2)]
          show _ = insertRep g k q (b :: _)
          simp only [insertRep]
          rw [if_neg hnot.1, if_neg heq]

theorem argmin_filter_key {α : Type} (g : α → ℤ) (k : α → ℚ × ℚ × ℚ)
    (l : List α) (d : ℤ) (m : α)
    (h : argminStable k (l.filter (fun x => decide (g x = d))) = some m) :
    g m = d := by
  have hm := argminStable_mem k _ m h
  rw [List.mem_filter] at hm
  simpa using hm.2

theorem filterMap_head {β γ : Type} (f : β → Option γ) (d : β)
    (D : List β) (m : γ) (h : f d = some m) :
    (d :: D).filterMap f = m :: D.filterMap f := by
  rw [List.filterMap_cons, h]

theorem filterMap_insertKey {α : Type} (g : α → ℤ) (k : α → ℚ × ℚ × ℚ)
    (q : α) (l : List α) :
    ∀ (D : List ℤ), D.Pairwise (· < ·) →
      (∀ d ∈ D, l.filter (fun x => decide (g x = d)) ≠ []) →
      (g q ∉ D → l.filter (fun x => decide (g x = g q)) = []) →
      (insertKey (g q) D).filterMap
          (fun d => argminStable k ((q :: l).filter (fun x => decide (g x = d)))) =
        insertRep g k q
          (D.filterMap (fun d => argminStable k (l.filter (fun x => decide (g x = d))))) := by
  have hqfilter : ∀ (hfq : l.filter (fun x => decide (g x = g q)) = []),
      (q :: l).filter (fun x => decide (g x = g q)) = [q] := by
    intro hfq
    rw [List.filter_cons, hfq]
    simp
  have hcons : ∀ d, d ≠ g q →
      (q :: l).filter (fun x => decide (g x = d)) =
        l.filter (fun x => decide (g x = d)) := by
    intro d hd
    rw [List.filter_cons]
    have hdec : (decide (g q = d)) = false := by
      simp only [decide_eq_false_iff_not]
      omega
    rw [hdec]
    simp only [Bool.false_eq_true, if_false]
  intro D
  induction D with
  | nil =>
    intro _ _ hb
    have hfq : l.filter (fun x => decide (g x = g q)) = [] := hb (by simp)
    show [g q].filterMap _ = insertRep g k q []
    have hsome : argminStable k ((q :: l).filter (fun x => decide (g x = g q))) =
        some q := by
      rw [hqfilter hfq]
      rfl
    rw [filterMap_head (fun d => argminStable k ((q :: l).filter (fun x => decide (g x = d)))) (g q) [] q hsome, List.filterMap_nil]
    rfl
  | cons e D' ih =>
    intro hp ha hb
    rw [List.pairwise_cons] at hp
    obtain ⟨me, hme⟩ := argminStable_ne_none k _ (ha e (List.mem_cons_self e D'))
    have hgme : g me = e := argmin_filter_key g k l e me hme
    show (insertKey (g q) (e :: D')).filterMap _ = _
    rw [insertKey]
    by_cases h1 : g q < e
    · rw [if_pos h1]
      have hqout : g q ∉ e :: D' := by
        intro hmem
        rcases List.mem_cons.mp hmem with rfl | hmem'
        · omega
        · have := hp.1 _ hmem'
          omega
      have hfq : l.filter (fun x => decide (g x = g q)) = [] := hb hqout
      have hsome : argminStable k ((q :: l).filter (fun x => decide (g x = g q))) =
          some q := by
        rw [hqfilter hfq]
        rfl
      rw [filterMap_head (fun d => argminStable k ((q :: l).filter (fun x => decide (g x = d)))) (g q) (e :: D') q hsome]
      have hrest : (e :: D').filterMap
          (fun d => argminStable k ((q :: l).filter (fun x => decide (g x = d)))) =
          (e :: D').filterMap
            (fun d => argminStable k (l.filter (fun x => decide (g x = d)))) := by
        apply List.filterMap_congr
        intro d hd
        have hdne : d ≠ g q := by
          rcases List.mem_cons.mp hd with rfl | hd'
          · omega
          · have := hp.1 _ hd'
            omega
        rw [hcons d hdne]
      rw [hrest, filterMap_head (fun d => argminStable k (l.filter (fun x => decide (g x = d)))) e D' me hme]
      show _ = insertRep g k q (me :: _)
      simp only [insertRep]
      rw [if_pos (by omega : g q < g me)]
    · rw [if_neg h1]
      by_cases h2 : g q = e
      · rw [if_pos h2]
        have hq1 : (q :: l).filter (fun x => decide (g x = e)) =
            q :: l.filter (fun x => decide (g x = e)) := by
          rw [List.filter_cons]
          have hdec : (decide (g q = e)) = true := by
            simp only [decide_eq_true_eq]
            omega
          rw [hdec]
          simp only [if_pos]
        have hsome : argminStable k ((q :: l).filter (fun x => decide (g x = e))) =
            some (if kle (k q) (k me) then q else me) := by
          rw [hq1, argminStable_cons, hme]
        rw [filterMap_head (fun d => argminStable k ((q :: l).filter (fun x => decide (g x = d)))) e D' (if kle (k q) (k me) then q else me) hsome,
          filterMap_head (fun d => argminStable k (l.filter (fun x => decide (g x = d)))) e D' me hme]
        have hrest : D'.filterMap
            (fun d => argminStable k ((q :: l).filter (fun x => decide (g x = d)))) =
            D'.filterMap
              (fun d => argminStable k (l.filter (fun x => decide (g x = d)))) := by
          apply List.filterMap_congr
          intro d hd
          have := hp.1 _ hd
          rw [hcons d (by omega)]
        rw [hrest]
        show _ = insertRep g k q (me :: _)
        simp only [insertRep]
        rw [if_neg (by omega : ¬ g q < g me), if_pos (by omega : g q = g me)]
        by_cases h3 : kle (k q) (k me)
        · rw [if_pos h3, if_pos h3]
        · rw [if_neg h3, if_neg h3]
      · rw [if_neg h2]
        have hsome : argminStable k ((q :: l).filter (fun x => decide (g x = e))) =
            some me := by
          rw [hcons e (by omega)]
          exact hme
        rw [filterMap_head (fun d => argminStable k ((q :: l).filter (fun x => decide (g x = d)))) e
            (insertKey (g q) D') me hsome,
          filterMap_head (fun d => argminStable k (l.filter (fun x => decide (g x = d)))) e D' me hme]
        have hrec := ih hp.2 (fun d hd => ha d (List.mem_cons_of_mem e hd))
          (fun hout => hb (by
            intro hmem
            rcases List.mem_cons.mp hmem with rfl | hmem'
            · omega
            · exact hout hmem'))
        rw [hrec]
        show me :: _ = insertRep g k q (me :: _)
        simp only [insertRep]
        rw [if_neg (by omega : ¬ g q < g me), if_neg (by omega : ¬ g q = g me)]

theorem bestPerKey_cons {α : Type} (g : α → ℤ) (k : α → ℚ × ℚ × ℚ)
    (q : α) (l : List α) :
    bestPerKey g k (q :: l) = insertRep g k q (bestPerKey g k l) := by
  unfold bestPerKey
  rw [keysSorted_cons]
  apply filterMap_insertKey
  · exact keysSorted_pairwise g l
  · intro d hd
    obtain ⟨x, hx, hgx⟩ := (keysSorted_mem g l d).mp hd
    exact List.ne_nil_of_mem (List.mem_filter.mpr ⟨hx, by simp [hgx]⟩)
  · intro hout
    rw [List.filter_eq_nil_iff]
    intro x hx
    simp only [decide_eq_true_eq]
    intro hgx
    exact hout ((keysSorted_mem g l (g q)).mpr ⟨x, hx, hgx⟩)

/-- The central sorting identity: pandas' stable multi-key sort
(`sort_values([group, key...])`) followed by keep-first-per-group
(`drop_duplicates(group)` / `groupby(group).first()`) equals the
specification's description — for each group key in ascending order, the
input-earliest row minimising the ranking key. -/
theorem dedupG_insertionSort {α : Type} (g : α → ℤ) (k : α → ℚ × ℚ × ℚ) :
    ∀ (l : List α),
      dedupG g (List.insertionSort (lexRel g k) l) = bestPerKey g k l := by
  intro l
  induction l with
  | nil =>
    show dedupG g [] = bestPerKey g k []
    rw [dedupG_nil]
    rfl
  | cons q l ih =>
    show dedupG g (List.orderedInsert (lexRel g k) q
      (List.insertionSort (lexRel g k) l)) = _
    rw [dedupG_orderedInsert g k q (List.insertionSort (lexRel g k) l).length
      (List.insertionSort (lexRel g k) l) le_rfl
      (List.sorted_insertionSort (lexRel g k) l)]
    rw [ih, bestPerKey_cons]

/-! ### Option quotes and preprocessing (`_prep_base`) -/

/-- Normalized `put_call` flag.  `_prep_base` maps the raw strings to the
single characters `C`/`P` (unrecognized values become missing and are
dropped by the later groupbys); the embedding takes quotes with the flag
already normalized. -/
inductive PC
  | C
  | P
deriving DecidableEq

/-- One option quote row (the columns `_pick_atm_tolerant` /
`_pick_25d_wings_by_date` read).  Dates are encoded as integers (e.g.
`20200102` for 2020-01-02); only their ordering and equality matter. -/
structure Quote where
  date : ℤ
  tenor_d : ℚ
  put_call : PC
  bid : ℚ
  ask : ℚ
  iv : ℚ
  delta : ℚ
deriving DecidableEq

/-- pandas `Series.quantile(0.99)` (linear interpolation on the sorted
values); `none` on an empty series (pandas yields NaN, which fails every
comparison). -/
def quantile99 (l : List ℚ) : Option ℚ :=
  if l = [] then none
  else
    some (
      let s := l.insertionSort (· ≤ ·)
      let pos : ℚ := (99 / 100) * ((l.length : ℚ) - 1)
      let lo : ℕ := (Int.floor pos).toNat
      let frac : ℚ := pos - (lo : ℚ)
      s.getD lo 0 + frac * (s.getD (lo + 1) 0 - s.getD lo 0))

/-- The `_prep_base` auto-rescale trigger:
`x["delta"].abs().quantile(0.99) > 2`. -/
def deltaRescaleNeeded (qs : List Quote) : Bool :=
  match quantile99 (qs.map (fun q => abs q.delta)) with
  | none => false
  | some v => decide (2 < v)

/-- `_prep_base`: divide all deltas by 100 when the vendor encoded them as
±100 (99th percentile of `|delta|` above 2); `put_call` normalization is
the identity on the already-normalized quotes modelled here. -/
def prepBase (qs : List Quote) : List Quote :=
  if deltaRescaleNeeded qs then
    qs.map (fun q => { q with delta := q.delta / 100 })
  else qs

/-! ### Tolerant ATM selection (`_pick_atm_tolerant`) -/

/-- The ranking key of the tier branch:
`(dte_diff, atm_diff, spread) = (|tenor_d - target|, ||delta| - 0.5|, ask - bid)`. -/
def atmKey (target : ℚ) (q : Quote) : ℚ × ℚ × ℚ :=
  (abs (q.tenor_d - target), abs (abs q.delta - 1/2), q.ask - q.bid)

/-- The ranking key of the fallback branch: `(atm_diff, spread)` (padded
with a constant third component). -/
def atmFallbackKey (q : Quote) : ℚ × ℚ × ℚ :=
  (abs (abs q.delta - 1/2), q.ask - q.bid, 0)

/-- The escalating `(tenor_tol, delta_tol)` tiers
`[(15, 0.15), (25, 0.20), (35, 0.25)]`. -/
def atmTiers : List (ℚ × ℚ) := [(15, 3/20), (25, 1/5), (35, 1/4)]

/-- The tier loop and fallback of `_pick_atm_tolerant`, on prepped quotes:
per tier, filter by tenor distance then by delta distance, `continue` when
either filter empties; otherwise stable-sort by
`(date, dte_diff, atm_diff, spread)`, keep the first row per date and
return `[date, iv]`.  After the loop: fall back to the widest (35d) tenor
window ranked by `(date, atm_diff, spread)`, or an empty table. -/
def pickAtmLoop (x : List Quote) (target : ℚ) :
    List (ℚ × ℚ) → List (ℤ × ℚ)
  | [] =>
    let z := x.filter (fun q => decide (abs (q.tenor_d - target) ≤ 35))
    if z = [] then []
    else
      (dedupG Quote.date
        (List.insertionSort (lexRel Quote.date atmFallbackKey) z)).map
        (fun q => (q.date, q.iv))
  | (dtol, dltol) :: rest =>
    let z1 := x.filter (fun q => decide (abs (q.tenor_d - target) ≤ dtol))
    if z1 = [] then pickAtmLoop x target rest
    else
      let z2 := z1.filter (fun q => decide (abs (abs q.delta - 1/2) ≤ dltol))
      if z2 = [] then pickAtmLoop x target rest
      else
        (dedupG Quote.date
          (List.insertionSort (lexRel Quote.date (atmKey target)) z2)).map
          (fun q => (q.date, q.iv))

/-- `_pick_atm_tolerant(df, target_dte)`: preprocessing, then the tier
loop. -/
def pick_atm_tolerant (qs : List Quote) (target : ℚ) : List (ℤ × ℚ) :=
  pickAtmLoop (prepBase qs) target atmTiers

/-- Control-flow observer of the same loop: the 0-based index of the tier
the loop returns at (`none` when it reaches the fallback). -/
def atmTierUsedLoop (x : List Quote) (target : ℚ) :
    ℕ → List (ℚ × ℚ) → Option ℕ
  | _, [] => none
  | i, (dtol, dltol) :: rest =>
    let z1 := x.filter (fun q => decide (abs (q.tenor_d - target) ≤ dtol))
    if z1 = [] then atmTierUsedLoop x target (i + 1) rest
    else
      let z2 := z1.filter (fun q => decide (abs (abs q.delta - 1/2) ≤ dltol))
      if z2 = [] then atmTierUsedLoop x target (i + 1) rest
      else some i

def atmTierUsed (qs : List Quote) (target : ℚ) : Option ℕ :=
  atmTierUsedLoop (prepBase qs) target 0 atmTiers

/-! ### The claim's reference ATM algorithm -/

/-- The claim's reference algorithm: per tier, the survivors are the quotes
within both tolerances; at the first tier with survivors, keep per date the
input-earliest quote minimising `(tenor distance, delta distance, spread)`
and return; if every tier is empty, fall back to the 35-day tenor window
with no delta restriction ranked by `(delta distance, spread)`; dates with
no match are absent, and an empty input yields an empty output. -/
def pickAtmRefLoop (x : List Quote) (target : ℚ) :
    List (ℚ × ℚ) → List (ℤ × ℚ)
  | [] =>
    (bestPerKey Quote.date atmFallbackKey
      (x.filter (fun q => decide (abs (q.tenor_d - target) ≤ 35)))).map
      (fun q => (q.date, q.iv))
  | (dtol, dltol) :: rest =>
    let z := x.filter (fun q =>
      decide (abs (q.tenor_d - target) ≤ dtol ∧ abs (abs q.delta - 1/2) ≤ dltol))
    if z = [] then pickAtmRefLoop x target rest
    else (bestPerKey Quote.date (atmKey target) z).map (fun q => (q.date, q.iv))

def pickAtmRef (qs : List Quote) (target : ℚ) : List (ℤ × ℚ) :=
  pickAtmRefLoop qs target atmTiers

theorem pickAtmLoop_eq_ref (x : List Quote) (target : ℚ) :
    ∀ tiers : List (ℚ × ℚ),
      pickAtmLoop x target tiers = pickAtmRefLoop x target tiers := by
  intro tiers
  induction tiers with
  | nil =>
    simp only [pickAtmLoop, pickAtmRefLoop]
    by_cases hz : x.filter (fun q => decide (abs (q.tenor_d - target) ≤ 35)) = []
    · rw [if_pos hz, hz]
      rfl
    · rw [if_neg hz, dedupG_insertionSort]
  | cons tier rest ih =>
    obtain ⟨dtol, dltol⟩ := tier
    simp only [pickAtmLoop, pickAtmRefLoop]
    have hzz : (x.filter (fun q => decide (abs (q.tenor_d - target) ≤ dtol))).filter
        (fun q => decide (abs (abs q.delta - 1/2) ≤ dltol)) =
        x.filter (fun q =>
          decide (abs (q.tenor_d - target) ≤ dtol ∧ abs (abs q.delta - 1/2) ≤ dltol)) := by
      rw [List.filter_filter]
      congr 1
      funext q
      by_cases hA : abs (q.tenor_d - target) ≤ dtol <;>
        by_cases hB : abs (abs q.delta - 1/2) ≤ dltol <;>
        simp [hA, hB]
    by_cases h1 : x.filter (fun q => decide (abs (q.tenor_d - target) ≤ dtol)) = []
    · rw [if_pos h1]
      have h2 : x.filter (fun q =>
          decide (abs (q.tenor_d - target) ≤ dtol ∧ abs (abs q.delta - 1/2) ≤ dltol)) = [] := by
        rw [← hzz, h1]
        rfl
      rw [if_pos h2]
      exact ih
    · rw [if_neg h1]
      by_cases h2 : (x.filter (fun q => decide (abs (q.tenor_d - target) ≤ dtol))).filter
          (fun q => decide (abs (abs q.delta - 1/2) ≤ dltol)) = []
      · rw [if_pos h2]
        rw [hzz] at h2
        rw [if_pos h2]
        exact ih
      · rw [if_neg h2]
        rw [hzz] at h2
        rw [if_neg h2, dedupG_insertionSort, hzz]

/-- C4: on inputs whose deltas are already in unit scale (so the
`_prep_base` auto-rescale does not trigger; the claim describes only the
selection logic), the 30/91-day ATM selector equals the claim's reference
algorithm: tiers `(15d,0.15),(25d,0.20),(35d,0.25)` tried in order, at the
first tier with survivors rank ascending by (tenor distance, delta
distance, spread) with ties broken by input order, keep one best quote per
date and return immediately; if every tier is empty, fall back to the
35-day tenor window with no delta restriction ranked by delta distance then
spread; a date with no match even then is absent, and an empty input yields
an empty output without raising. -/
theorem atm_selector_matches_reference (qs : List Quote) (target : ℚ)
    (hprep : deltaRescaleNeeded qs = false) :
    pick_atm_tolerant qs target = pickAtmRef qs target := by
  unfold pick_atm_tolerant pickAtmRef prepBase
  rw [hprep]
  simp only [Bool.false_eq_true, if_false]
  exact pickAtmLoop_eq_ref qs target atmTiers

/-- Witness for C4 at the spec's concrete quote
`{date: 2020-01-02, tenor_d: 40, delta: 0.40, iv: 0.22, bid: 0.21, ask: 0.23}`. -/
theorem atm_selector_matches_reference_witness :
    deltaRescaleNeeded [⟨20200102, 40, PC.C, 21/100, 23/100, 22/100, 2/5⟩] = false ∧
    pick_atm_tolerant [⟨20200102, 40, PC.C, 21/100, 23/100, 22/100, 2/5⟩] 30 =
      pickAtmRef [⟨20200102, 40, PC.C, 21/100, 23/100, 22/100, 2/5⟩] 30 := by
  have hprep : deltaRescaleNeeded
      [⟨20200102, 40, PC.C, 21/100, 23/100, 22/100, 2/5⟩] = false := by
    norm_num [deltaRescaleNeeded, quantile99, List.insertionSort,
      List.orderedInsert, List.getD, Int.floor_zero, abs_le]
  exact ⟨hprep,
    atm_selector_matches_reference
      [⟨20200102, 40, PC.C, 21/100, 23/100, 22/100, 2/5⟩] 30 hprep⟩


theorem prepBase_id_of_not_needed (qs : List Quote)
    (h : deltaRescaleNeeded qs = false) : prepBase qs = qs := by
  unfold prepBase
  rw [h]
  simp

/-- Counterexample to C5 as stated: the single quote at
`tenor_d = 40, delta = 0.40` is *not* outside the first tier —
`|40 - 30| = 10 ≤ 15` and `||0.40| - 0.50| = 0.10 ≤ 0.15` — so the 30-day
ATM selector resolves it at the first `(15d, 0.15)` tier (index 0), not the
third `(35d, 0.25)` tier (index 2). -/
theorem atm_fallback_scenario_cex :
    atmTierUsed [⟨20200102, 40, PC.C, 21/100, 23/100, 22/100, 2/5⟩] 30 = some 0 ∧
    atmTierUsed [⟨20200102, 40, PC.C, 21/100, 23/100, 22/100, 2/5⟩] 30 ≠ some 2 := by
  have hprep : prepBase [⟨20200102, 40, PC.C, 21/100, 23/100, 22/100, 2/5⟩] =
      [⟨20200102, 40, PC.C, 21/100, 23/100, 22/100, 2/5⟩] := by
    apply prepBase_id_of_not_needed
    norm_num [deltaRescaleNeeded, quantile99, List.insertionSort,
      List.orderedInsert, List.getD, Int.floor_zero, abs_le]
  have h : atmTierUsed [⟨20200102, 40, PC.C, 21/100, 23/100, 22/100, 2/5⟩] 30 =
      some 0 := by
    rw [atmTierUsed, hprep]
    norm_num [atmTierUsedLoop, atmTiers, List.filter_cons,
      abs_of_nonneg, abs_of_nonpos]
  exact ⟨h, by rw [h]; simp⟩

/-- C5 as amended: on the input table containing exactly the quote
`{date: 2020-01-02, tenor_d: 40, delta: 0.40, iv: 0.22, bid: 0.21,
ask: 0.23}`, the 30-day ATM selector resolves the quote via the *first*
`(15d, 0.15)` tolerance tier (the wider tiers are never consulted), and
outputs exactly the row `{date: 2020-01-02, iv_atm_30d: 0.22}`. -/
theorem atm_fallback_scenario :
    pick_atm_tolerant [⟨20200102, 40, PC.C, 21/100, 23/100, 22/100, 2/5⟩] 30 =
      [(20200102, 22/100)] ∧
    atmTierUsed [⟨20200102, 40, PC.C, 21/100, 23/100, 22/100, 2/5⟩] 30 = some 0 := by
  have hprep : prepBase [⟨20200102, 40, PC.C, 21/100, 23/100, 22/100, 2/5⟩] =
      [⟨20200102, 40, PC.C, 21/100, 23/100, 22/100, 2/5⟩] := by
    apply prepBase_id_of_not_needed
    norm_num [deltaRescaleNeeded, quantile99, List.insertionSort,
      List.orderedInsert, List.getD, Int.floor_zero, abs_le]
  constructor
  · rw [pick_atm_tolerant, hprep]
    norm_num [pickAtmLoop, atmTiers, List.filter_cons, List.filter_nil,
      List.insertionSort, List.orderedInsert, dedupG_cons, dedupG_nil,
      abs_of_nonneg, abs_of_nonpos]
  · rw [atmTierUsed, hprep]
    norm_num [atmTierUsedLoop, atmTiers, List.filter_cons,
      abs_of_nonneg, abs_of_nonpos]

/-! ### 25-delta wing selection (`_pick_25d_wings_by_date`) -/

/-- Group key of the wings selection: the `(date, put_call)` pair, encoded
order-faithfully into `ℤ` (date-major; `C` sorts before `P`, as the strings
`"C" < "P"` do in pandas). -/
def gWings (q : Quote) : ℤ :=
  2 * q.date + (if q.put_call = PC.P then 1 else 0)

/-- Ranking key within a wings tier:
`(dte_diff, d_diff, spread) = (|tenor_d - target|, ||delta| - 0.25|, ask - bid)`. -/
def wingsKey (target : ℚ) (q : Quote) : ℚ × ℚ × ℚ :=
  (abs (q.tenor_d - target), abs (abs q.delta - 1/4), q.ask - q.bid)

/-- Ranking key of the wings fallback: `(d_diff, spread)` (constant pad). -/
def wingsFallbackKey (q : Quote) : ℚ × ℚ × ℚ :=
  (abs (abs q.delta - 1/4), q.ask - q.bid, 0)

/-- The wings tolerance tiers `[(15, 0.05), (25, 0.08), (35, 0.10)]`. -/
def wingsTiers : List (ℚ × ℚ) := [(15, 1/20), (25, 2/25), (35, 1/10)]

/-- One output row of the pivot: a date with the (possibly missing) best
put and call ivs (`iv_put25_30d` / `iv_call25_30d` cells). -/
structure WingRow where
  date : ℤ
  ivPut : Option ℚ
  ivCall : Option ℚ
deriving DecidableEq

/-- `pivot(index="date", columns="put_call", values="iv")` on rows unique
per `(date, put_call)`: index = the distinct dates ascending, one cell per
side (a side absent from the rows — including a column absent from the
frame entirely — is a missing cell here). -/
def pivotW (rows : List Quote) : List WingRow :=
  (keysSorted Quote.date rows).map (fun d =>
    ⟨d,
     (rows.find? (fun q => decide (q.date = d ∧ q.put_call = PC.P))).map Quote.iv,
     (rows.find? (fun q => decide (q.date = d ∧ q.put_call = PC.C))).map Quote.iv⟩)

/-- pandas `out.combine_first(wide)` on date-indexed frames: union of the
dates (ascending), cell-wise preference for `out`'s non-missing values. -/
def combineFirst : List WingRow → List WingRow → List WingRow
  | [], bs => bs
  | a :: as, [] => a :: as
  | a :: as, b :: bs =>
    if a.date < b.date then a :: combineFirst as (b :: bs)
    else if b.date < a.date then b :: combineFirst (a :: as) bs
    else
      ⟨a.date, a.ivPut.orElse (fun _ => b.ivPut),
       a.ivCall.orElse (fun _ => b.ivCall)⟩ :: combineFirst as bs
termination_by as bs => as.length + bs.length

/-- One wings tier of the source: tenor filter, `continue` when empty,
delta filter on `||delta| - 0.25|`, `continue` when empty, otherwise the
stable sort by `(date, put_call, dte_diff, d_diff, spread)` followed by
`groupby(["date", "put_call"]).first()`. -/
def wingsTierRows (x : List Quote) (target dtol dltol : ℚ) :
    Option (List Quote) :=
  let z1 := x.filter (fun q => decide (abs (q.tenor_d - target) ≤ dtol))
  if z1 = [] then none
  else
    let z2 := z1.filter (fun q => decide (abs (abs q.delta - 1/4) ≤ dltol))
    if z2 = [] then none
    else some (dedupG gWings
      (List.insertionSort (lexRel gWings (wingsKey target)) z2))

/-- The wings tier loop: unlike the ATM loop, every tier contributes —
`out = wide if out is None else out.combine_first(wide)`. -/
def wingsLoop (x : List Quote) (target : ℚ) :
    List (ℚ × ℚ) → Option (List WingRow) → Option (List WingRow)
  | [], acc => acc
  | (dtol, dltol) :: rest, acc =>
    match wingsTierRows x target dtol dltol with
    | none => wingsLoop x target rest acc
    | some rows =>
      match acc with
      | none => wingsLoop x target rest (some (pivotW rows))
      | some o => wingsLoop x target rest (some (combineFirst o (pivotW rows)))

/-- One final output row: date, the two cells, and
`iv_skew_30d = iv_put25_30d - iv_call25_30d` (missing when either side is). -/
structure WingOut where
  date : ℤ
  ivPut : Option ℚ
  ivCall : Option ℚ
  skew : Option ℚ
deriving DecidableEq

/-- `reset_index` + skew column + column selection. -/
def wingsFinish (rows : List WingRow) : List WingOut :=
  rows.map (fun w =>
    ⟨w.date, w.ivPut, w.ivCall,
     match w.ivPut, w.ivCall with
     | some p, some c => some (p - c)
     | _, _ => none⟩)

/-- The skew step `out["iv_skew_30d"] = out["iv_put25_30d"] -
out["iv_call25_30d"]` followed by the column selection: `pivot` creates a
side's column only when some row of that side exists, and `combine_first`
carries the union of the columns, so the final frame has the put column iff
some row carries a put cell (likewise for calls); a missing column makes
the subscript raise `KeyError` — the put column is read first. -/
def wingsSkewStep (rows : List WingRow) : Except PyError (List WingOut) :=
  if rows.any (fun w => w.ivPut.isSome) then
    if rows.any (fun w => w.ivCall.isSome) then .ok (wingsFinish rows)
    else .error .keyError
  else .error .keyError

/-- `_pick_25d_wings_by_date(df, target_dte)`: preprocessing, the
combine-across-tiers loop, the widest-window fallback when no tier matched,
then the skew step (which raises `KeyError` when one whole side is absent
from the combined pivot; the empty early return carries all columns and
does not reach it). -/
def pick_25d_wings_by_date (qs : List Quote) (target : ℚ) :
    Except PyError (List WingOut) :=
  let x := prepBase qs
  match wingsLoop x target wingsTiers none with
  | some o => wingsSkewStep o
  | none =>
    let z := x.filter (fun q => decide (abs (q.tenor_d - target) ≤ 35))
    if z = [] then .ok []
    else wingsSkewStep (pivotW (dedupG gWings
      (List.insertionSort (lexRel gWings wingsFallbackKey) z)))

/-- The algorithm C6 claims: identical tier data, but *returning at the
first non-empty tier without continuing to widen*, with the per-(date,
put_call) best chosen as the claim describes. -/
def wingsEarlyLoop (x : List Quote) (target : ℚ) :
    List (ℚ × ℚ) → List WingOut
  | [] =>
    let z := x.filter (fun q => decide (abs (q.tenor_d - target) ≤ 35))
    if z = [] then []
    else wingsFinish (pivotW (bestPerKey gWings wingsFallbackKey z))
  | (dtol, dltol) :: rest =>
    let z := x.filter (fun q =>
      decide (abs (q.tenor_d - target) ≤ dtol ∧ abs (abs q.delta - 1/4) ≤ dltol))
    if z = [] then wingsEarlyLoop x target rest
    else wingsFinish (pivotW (bestPerKey gWings (wingsKey target) z))

def pickWingsEarlyReturn (qs : List Quote) (target : ℚ) : List WingOut :=
  wingsEarlyLoop (prepBase qs) target wingsTiers

/-! ### The amended reference description of the wings selection -/

/-- Insert each key of `A` into the sorted-distinct list `B`. -/
def sortedUnion (A B : List ℤ) : List ℤ := A.foldr insertKey B

/-- The union of the two frames' dates, ascending. -/
def unionDates (a b : List WingRow) : List ℤ :=
  sortedUnion (a.map WingRow.date) (b.map WingRow.date)

/-- The `iv_put25_30d` cell of the row for date `d` (missing when the date
or the cell is). -/
def lookupPut (rows : List WingRow) (d : ℤ) : Option ℚ :=
  (rows.find? (fun w => decide (w.date = d))).bind WingRow.ivPut

def lookupCall (rows : List WingRow) (d : ℤ) : Option ℚ :=
  (rows.find? (fun w => decide (w.date = d))).bind WingRow.ivCall

/-- `combine_first` as the amended claim words it: the union of the dates
in ascending order, and per date and side the first frame's cell when
present, otherwise the second's. -/
def combineFirstRef (a b : List WingRow) : List WingRow :=
  (unionDates a b).map (fun d =>
    ⟨d, (lookupPut a d).orElse (fun _ => lookupPut b d),
        (lookupCall a d).orElse (fun _ => lookupCall b d)⟩)

/-- The amended reference loop: per tier the survivors within both
tolerances, best call and best put chosen independently per
`(date, put_call)` by ascending (tenor distance, delta distance, spread)
with ties broken by input order; the tiers' pivoted results are combined
with earlier tiers taking precedence cell-wise. -/
def wingsRefLoop (x : List Quote) (target : ℚ) :
    List (ℚ × ℚ) → Option (List WingRow) → Option (List WingRow)
  | [], acc => acc
  | (dtol, dltol) :: rest, acc =>
    let z := x.filter (fun q =>
      decide (abs (q.tenor_d - target) ≤ dtol ∧ abs (abs q.delta - 1/4) ≤ dltol))
    if z = [] then wingsRefLoop x target rest acc
    else
      let wide := pivotW (bestPerKey gWings (wingsKey target) z)
      match acc with
      | none => wingsRefLoop x target rest (some wide)
      | some o => wingsRefLoop x target rest (some (combineFirstRef o wide))

/-- The skew step as the amended claim words it: when every output date
lacks a put iv, or every output date lacks a call iv, that side's column
was never created and the selector fails with `KeyError`; otherwise each
date's skew is put iv minus call iv, missing when either side is missing
on that date. -/
def wingsSkewStepRef (rows : List WingRow) : Except PyError (List WingOut) :=
  if rows.all (fun w => w.ivPut.isNone) || rows.all (fun w => w.ivCall.isNone)
  then .error .keyError
  else .ok (wingsFinish rows)

def pickWingsRef (qs : List Quote) (target : ℚ) :
    Except PyError (List WingOut) :=
  match wingsRefLoop qs target wingsTiers none with
  | some o => wingsSkewStepRef o
  | none =>
    let z := qs.filter (fun q => decide (abs (q.tenor_d - target) ≤ 35))
    if z = [] then .ok []
    else wingsSkewStepRef (pivotW (bestPerKey gWings wingsFallbackKey z))

/-- `List.any` of a cell being present is the negation of `List.all` of it
being missing. -/
theorem any_isSome_eq (f : WingRow → Option ℚ) (l : List WingRow) :
    l.any (fun w => (f w).isSome) = !(l.all (fun w => (f w).isNone)) := by
  induction l with
  | nil => rfl
  | cons r rs ih =>
    simp only [List.any_cons, List.all_cons, ih, Bool.not_and]
    cases h : f r <;> simp [h]

/-- The source's skew step and the amended claim's wording of it agree:
the put column exists iff some row carries a put cell, i.e. unless every
row's put cell is missing. -/
theorem wingsSkewStep_eq_ref (rows : List WingRow) :
    wingsSkewStep rows = wingsSkewStepRef rows := by
  rw [wingsSkewStep, wingsSkewStepRef,
    any_isSome_eq WingRow.ivPut, any_isSome_eq WingRow.ivCall]
  cases hA : rows.all (fun w => w.ivPut.isNone) <;>
    cases hB : rows.all (fun w => w.ivCall.isNone) <;> simp

/-- Counterexample to C6 as stated: on two quotes — a call
`{date 1, tenor 30, delta 0.25}` and a put `{date 2, tenor 50, delta
-0.25}` — the first tier is non-empty (it keeps the call), yet the selector
does *not* return there: the put's date enters from a wider tier via
`combine_first`, so the output has two dates where the claim's
first-non-empty-tier algorithm yields one. -/
theorem wings_early_return_cex :
    pick_25d_wings_by_date
        [⟨1, 30, PC.C, 1/10, 11/100, 1/5, 1/4⟩,
         ⟨2, 50, PC.P, 1/10, 3/25, 3/10, -(1/4)⟩] 30 =
      .ok [⟨1, none, some (1/5), none⟩, ⟨2, some (3/10), none, none⟩] ∧
    pickWingsEarlyReturn
        [⟨1, 30, PC.C, 1/10, 11/100, 1/5, 1/4⟩,
         ⟨2, 50, PC.P, 1/10, 3/25, 3/10, -(1/4)⟩] 30 =
      [⟨1, none, some (1/5), none⟩] ∧
    pick_25d_wings_by_date
        [⟨1, 30, PC.C, 1/10, 11/100, 1/5, 1/4⟩,
         ⟨2, 50, PC.P, 1/10, 3/25, 3/10, -(1/4)⟩] 30 ≠
      .ok (pickWingsEarlyReturn
        [⟨1, 30, PC.C, 1/10, 11/100, 1/5, 1/4⟩,
         ⟨2, 50, PC.P, 1/10, 3/25, 3/10, -(1/4)⟩] 30) := by
  have hg1 : gWings ⟨1, 30, PC.C, 1/10, 11/100, 1/5, 1/4⟩ = 2 := by
    simp [gWings]
  have hg2 : gWings ⟨2, 50, PC.P, 1/10, 3/25, 3/10, -(1/4)⟩ = 5 := by
    simp [gWings]
  have hprep : prepBase
      [⟨1, 30, PC.C, 1/10, 11/100, 1/5, 1/4⟩,
       ⟨2, 50, PC.P, 1/10, 3/25, 3/10, -(1/4)⟩] =
      [⟨1, 30, PC.C, 1/10, 11/100, 1/5, 1/4⟩,
       ⟨2, 50, PC.P, 1/10, 3/25, 3/10, -(1/4)⟩] := by
    apply prepBase_id_of_not_needed
    norm_num [deltaRescaleNeeded, quantile99, List.insertionSort,
      List.orderedInsert, List.getD, abs_of_nonneg, abs_of_nonpos]
    all_goals try simp
    all_goals norm_num
  have h1 : pick_25d_wings_by_date
      [⟨1, 30, PC.C, 1/10, 11/100, 1/5, 1/4⟩,
       ⟨2, 50, PC.P, 1/10, 3/25, 3/10, -(1/4)⟩] 30 =
      .ok [⟨1, none, some (1/5), none⟩, ⟨2, some (3/10), none, none⟩] := by
    rw [pick_25d_wings_by_date]
    rw [hprep]
    norm_num [wingsLoop, wingsTierRows, wingsTiers, pivotW, combineFirst,
      wingsSkewStep, wingsFinish, keysSorted, insertKey, hg1, hg2, wingsKey,
      lexRel, kle, dedupG_cons, dedupG_nil, List.insertionSort,
      List.orderedInsert, List.any_cons, List.any_nil,
      List.filter_cons, List.filter_nil, List.find?, Option.orElse,
      abs_of_nonneg, abs_of_nonpos]
    all_goals try simp [wingsLoop, wingsTierRows, wingsTiers, pivotW, combineFirst,
      wingsSkewStep, wingsFinish, keysSorted, insertKey, hg1, hg2, wingsKey,
      lexRel, kle, dedupG_cons, dedupG_nil, List.insertionSort,
      List.orderedInsert, List.any_cons, List.any_nil,
      List.filter_cons, List.filter_nil, List.find?, Option.orElse,
      abs_of_nonneg, abs_of_nonpos]
  have h2 : pickWingsEarlyReturn
      [⟨1, 30, PC.C, 1/10, 11/100, 1/5, 1/4⟩,
       ⟨2, 50, PC.P, 1/10, 3/25, 3/10, -(1/4)⟩] 30 =
      [⟨1, none, some (1/5), none⟩] := by
    rw [pickWingsEarlyReturn, hprep]
    norm_num [wingsEarlyLoop, wingsTiers, pivotW, wingsFinish, bestPerKey,
      keysSorted, insertKey, hg1, hg2, wingsKey, argminStable, kle,
      List.filter_cons, List.filter_nil, List.find?, List.filterMap,
      abs_of_nonneg, abs_of_nonpos]
    all_goals try simp [wingsEarlyLoop, wingsTiers, pivotW, wingsFinish, bestPerKey,
      keysSorted, insertKey, hg1, hg2, wingsKey, argminStable, kle,
      List.filter_cons, List.filter_nil, List.find?, List.filterMap,
      abs_of_nonneg, abs_of_nonpos]
  refine ⟨h1, h2, ?_⟩
  rw [h1, h2]
  simp

/-! ### `combine_first` agrees with its cell-wise description -/

theorem insertKey_front (d : ℤ) (D : List ℤ) (h : ∀ e ∈ D, d < e) :
    insertKey d D = d :: D := by
  cases D with
  | nil => rfl
  | cons e es =>
    unfold insertKey
    rw [if_pos (h e (List.mem_cons_self e es))]

theorem sortedUnion_mem : ∀ (A B : List ℤ) (e : ℤ),
    e ∈ sortedUnion A B ↔ e ∈ A ∨ e ∈ B := by
  intro A
  induction A with
  | nil =>
    intro B e
    simp [sortedUnion]
  | cons d A' ih =>
    intro B e
    show e ∈ insertKey d (sortedUnion A' B) ↔ _
    rw [insertKey_mem, ih B e]
    simp only [List.mem_cons]
    tauto

theorem sortedUnion_nil_right : ∀ (A : List ℤ), A.Pairwise (· < ·) →
    sortedUnion A [] = A := by
  intro A
  induction A with
  | nil => intro _; rfl
  | cons d A' ih =>
    intro hp
    rw [List.pairwise_cons] at hp
    show insertKey d (sortedUnion A' []) = d :: A'
    rw [ih hp.2]
    exact insertKey_front d A' hp.1

theorem sortedUnion_cons_right : ∀ (A : List ℤ) (e : ℤ) (L : List ℤ),
    (∀ d ∈ A, e < d) →
    sortedUnion A (e :: L) = e :: sortedUnion A L := by
  intro A
  induction A with
  | nil => intro e L _; rfl
  | cons d A' ih =>
    intro e L h
    show insertKey d (sortedUnion A' (e :: L)) = e :: insertKey d (sortedUnion A' L)
    rw [ih e L (fun d' hd' => h d' (List.mem_cons_of_mem d hd'))]
    have hed : e < d := h d (List.mem_cons_self d A')
    conv_lhs => rw [insertKey]
    rw [if_neg (by omega), if_neg (by omega)]

theorem sortedUnion_pairwise : ∀ (A B : List ℤ), B.Pairwise (· < ·) →
    (sortedUnion A B).Pairwise (· < ·) := by
  intro A
  induction A with
  | nil => intro B hB; exact hB
  | cons d A' ih =>
    intro B hB
    exact insertKey_pairwise d _ (ih B hB)

theorem lookupPut_head {w : WingRow} {rows : List WingRow} {d : ℤ}
    (h : w.date = d) : lookupPut (w :: rows) d = w.ivPut := by
  unfold lookupPut
  rw [List.find?_cons_of_pos _ (by simpa using h)]
  rfl

theorem lookupPut_tail {w : WingRow} {rows : List WingRow} {d : ℤ}
    (h : w.date ≠ d) : lookupPut (w :: rows) d = lookupPut rows d := by
  unfold lookupPut
  rw [List.find?_cons_of_neg _ (by simpa using h)]

theorem lookupCall_head {w : WingRow} {rows : List WingRow} {d : ℤ}
    (h : w.date = d) : lookupCall (w :: rows) d = w.ivCall := by
  unfold lookupCall
  rw [List.find?_cons_of_pos _ (by simpa using h)]
  rfl

theorem lookupCall_tail {w : WingRow} {rows : List WingRow} {d : ℤ}
    (h : w.date ≠ d) : lookupCall (w :: rows) d = lookupCall rows d := by
  unfold lookupCall
  rw [List.find?_cons_of_neg _ (by simpa using h)]

theorem lookupPut_none {rows : List WingRow} {d : ℤ}
    (h : ∀ w ∈ rows, w.date ≠ d) : lookupPut rows d = none := by
  unfold lookupPut
  rw [List.find?_eq_none.mpr (fun w hw => by simpa using h w hw)]
  rfl

theorem lookupCall_none {rows : List WingRow} {d : ℤ}
    (h : ∀ w ∈ rows, w.date ≠ d) : lookupCall rows d = none := by
  unfold lookupCall
  rw [List.find?_eq_none.mpr (fun w hw => by simpa using h w hw)]
  rfl

theorem orElse_self_none {x : Option ℚ} :
    (x.orElse fun _ => none) = x := by
  cases x <;> rfl

theorem none_orElse_self {f : Unit → Option ℚ} :
    (Option.orElse none f) = f () := rfl

/-- Rebuilding a date-sorted frame from lookups over its own dates. -/
theorem wingRows_reconstruct :
    ∀ (rows : List WingRow),
      rows.Pairwise (fun u v => u.date < v.date) →
      (rows.map WingRow.date).map
        (fun d => WingRow.mk d (lookupPut rows d) (lookupCall rows d)) = rows := by
  intro rows
  induction rows with
  | nil => intro _; rfl
  | cons w rest ih =>
    intro hp
    rw [List.pairwise_cons] at hp
    simp only [List.map_cons]
    rw [lookupPut_head rfl, lookupCall_head rfl]
    have hcg : ∀ d ∈ rest.map WingRow.date,
        WingRow.mk d (lookupPut (w :: rest) d) (lookupCall (w :: rest) d) =
          WingRow.mk d (lookupPut rest d) (lookupCall rest d) := by
      intro d hd
      obtain ⟨v, hv, rfl⟩ := List.mem_map.mp hd
      have hne : w.date ≠ v.date := ne_of_lt (hp.1 v hv)
      rw [lookupPut_tail hne, lookupCall_tail hne]
    rw [List.map_congr_left hcg, ih hp.2]

theorem combineFirst_nil_left (bs : List WingRow) :
    combineFirst [] bs = bs := by
  rw [combineFirst]

theorem combineFirst_cons_nil (x : WingRow) (as : List WingRow) :
    combineFirst (x :: as) [] = x :: as := by
  rw [combineFirst]

theorem combineFirst_cons_cons (x y : WingRow) (as bs : List WingRow) :
    combineFirst (x :: as) (y :: bs) =
      if x.date < y.date then x :: combineFirst as (y :: bs)
      else if y.date < x.date then y :: combineFirst (x :: as) bs
      else
        ⟨x.date, x.ivPut.orElse (fun _ => y.ivPut),
         x.ivCall.orElse (fun _ => y.ivCall)⟩ :: combineFirst as bs := by
  rw [combineFirst]

theorem combineFirst_eq_ref :
    ∀ (n : ℕ) (a b : List WingRow), a.length + b.length ≤ n →
      a.Pairwise (fun u v => u.date < v.date) →
      b.Pairwise (fun u v => u.date < v.date) →
      combineFirst a b = combineFirstRef a b := by
  intro n
  induction n with
  | zero =>
    intro a b hlen _ _
    have ha : a = [] := by
      cases a with
      | nil => rfl
      | cons _ _ => simp at hlen
    have hb : b = [] := by
      cases b with
      | nil => rfl
      | cons _ _ =>
        subst ha
        simp at hlen
    subst ha
    subst hb
    rw [combineFirst_nil_left]
    rfl
  | succ n ih =>
    intro a b hlen hpa hpb
    cases a with
    | nil =>
      rw [combineFirst_nil_left]
      show b = combineFirstRef [] b
      unfold combineFirstRef
      have hud : unionDates [] b = b.map WingRow.date := rfl
      rw [hud]
      have hcg : ∀ d ∈ b.map WingRow.date,
          (WingRow.mk d ((lookupPut [] d).orElse (fun _ => lookupPut b d))
            ((lookupCall [] d).orElse (fun _ => lookupCall b d))) =
            WingRow.mk d (lookupPut b d) (lookupCall b d) := by
        intro d _
        rfl
      rw [List.map_congr_left hcg, wingRows_reconstruct b hpb]
    | cons x as =>
      have hpa' := List.pairwise_cons.mp hpa
      cases b with
      | nil =>
        rw [combineFirst_cons_nil]
        show x :: as = combineFirstRef (x :: as) []
        unfold combineFirstRef
        have hud : unionDates (x :: as) [] = (x :: as).map WingRow.date := by
          unfold unionDates
          show sortedUnion ((x :: as).map WingRow.date) [] = _
          exact sortedUnion_nil_right _ (List.pairwise_map.mpr hpa)
        rw [hud]
        have hcg : ∀ d ∈ (x :: as).map WingRow.date,
            (WingRow.mk d
              ((lookupPut (x :: as) d).orElse (fun _ => lookupPut [] d))
              ((lookupCall (x :: as) d).orElse (fun _ => lookupCall [] d))) =
              WingRow.mk d (lookupPut (x :: as) d) (lookupCall (x :: as) d) := by
          intro d _
          rw [show lookupPut ([] : List WingRow) d = none from rfl,
            show lookupCall ([] : List WingRow) d = none from rfl,
            orElse_self_none, orElse_self_none]
        rw [List.map_congr_left hcg, wingRows_reconstruct _ hpa]
      | cons y bs =>
        have hpb' := List.pairwise_cons.mp hpb
        simp only [List.length_cons] at hlen
        rcases lt_trichotomy x.date y.date with hlt | heq | hgt
        · -- x strictly first
          rw [combineFirst_cons_cons, if_pos hlt]
          rw [ih as (y :: bs) (by simp only [List.length_cons]; omega) hpa'.2 hpb]
          unfold combineFirstRef
          have hub : ∀ e ∈ sortedUnion (as.map WingRow.date)
              ((y :: bs).map WingRow.date), x.date < e := by
            intro e he
            rcases (sortedUnion_mem _ _ e).mp he with h | h
            · obtain ⟨v, hv, rfl⟩ := List.mem_map.mp h
              exact hpa'.1 v hv
            · obtain ⟨v, hv, rfl⟩ := List.mem_map.mp h
              rcases List.mem_cons.mp hv with rfl | hv'
              · exact hlt
              · exact lt_trans hlt (hpb'.1 v hv')
          have hud : unionDates (x :: as) (y :: bs) =
              x.date :: unionDates as (y :: bs) := by
            show insertKey x.date (sortedUnion (as.map WingRow.date)
              ((y :: bs).map WingRow.date)) = _
            exact insertKey_front _ _ hub
          rw [hud, List.map_cons]
          have hnb : ∀ w ∈ y :: bs, w.date ≠ x.date := by
            intro w hw
            rcases List.mem_cons.mp hw with rfl | hw'
            · omega
            · have := hpb'.1 w hw'
              omega
          rw [lookupPut_head rfl, lookupCall_head rfl,
            lookupPut_none hnb, lookupCall_none hnb,
            orElse_self_none, orElse_self_none]
          have hcg : ∀ d ∈ unionDates as (y :: bs),
              (WingRow.mk d
                ((lookupPut (x :: as) d).orElse (fun _ => lookupPut (y :: bs) d))
                ((lookupCall (x :: as) d).orElse (fun _ => lookupCall (y :: bs) d))) =
                WingRow.mk d
                  ((lookupPut as d).orElse (fun _ => lookupPut (y :: bs) d))
                  ((lookupCall as d).orElse (fun _ => lookupCall (y :: bs) d)) := by
            intro d hd
            have hx : x.date ≠ d := by
              have := hub d ((sortedUnion_mem _ _ d).mpr
                ((sortedUnion_mem _ _ d).mp hd))
              omega
            rw [lookupPut_tail hx, lookupCall_tail hx]
          rw [List.map_congr_left hcg]
        · -- equal dates: cells merge
          rw [combineFirst_cons_cons, if_neg (by omega), if_neg (by omega)]
          rw [ih as bs (by omega) hpa'.2 hpb'.2]
          unfold combineFirstRef
          have hud : unionDates (x :: as) (y :: bs) =
              y.date :: unionDates as bs := by
            show insertKey x.date (sortedUnion (as.map WingRow.date)
              ((y :: bs).map WingRow.date)) = _
            have h1 : sortedUnion (as.map WingRow.date)
                (y.date :: bs.map WingRow.date) =
                y.date :: sortedUnion (as.map WingRow.date)
                  (bs.map WingRow.date) := by
              apply sortedUnion_cons_right
              intro d hd
              obtain ⟨v, hv, rfl⟩ := List.mem_map.mp hd
              have := hpa'.1 v hv
              omega
            show insertKey x.date (sortedUnion (as.map WingRow.date)
              (y.date :: bs.map WingRow.date)) = _
            rw [h1]
            conv_lhs => rw [insertKey]
            rw [if_neg (by omega), if_pos heq]
            rfl
          rw [hud, List.map_cons]
          rw [lookupPut_head (by omega), lookupCall_head (by omega),
            lookupPut_head rfl, lookupCall_head rfl]
          have hcg : ∀ d ∈ unionDates as bs,
              (WingRow.mk d
                ((lookupPut (x :: as) d).orElse (fun _ => lookupPut (y :: bs) d))
                ((lookupCall (x :: as) d).orElse (fun _ => lookupCall (y :: bs) d))) =
                WingRow.mk d
                  ((lookupPut as d).orElse (fun _ => lookupPut bs d))
                  ((lookupCall as d).orElse (fun _ => lookupCall bs d)) := by
            intro d hd
            have hda : x.date ≠ d ∧ y.date ≠ d := by
              rcases (sortedUnion_mem _ _ d).mp hd with h | h
              · obtain ⟨v, hv, rfl⟩ := List.mem_map.mp h
                have := hpa'.1 v hv
                constructor <;> omega
              · obtain ⟨v, hv, rfl⟩ := List.mem_map.mp h
                have := hpb'.1 v hv
                constructor <;> omega
            rw [lookupPut_tail hda.1, lookupCall_tail hda.1,
              lookupPut_tail hda.2, lookupCall_tail hda.2]
          rw [List.map_congr_left hcg]
          have hxy : (⟨x.date, x.ivPut.orElse (fun _ => y.ivPut),
              x.ivCall.orElse (fun _ => y.ivCall)⟩ : WingRow) =
              ⟨y.date, x.ivPut.orElse (fun _ => y.ivPut),
               x.ivCall.orElse (fun _ => y.ivCall)⟩ := by
            rw [heq]
          rw [hxy]
        · -- y strictly first
          rw [combineFirst_cons_cons, if_neg (by omega), if_pos hgt]
          rw [ih (x :: as) bs (by simp only [List.length_cons]; omega) hpa hpb'.2]
          unfold combineFirstRef
          have hud : unionDates (x :: as) (y :: bs) =
              y.date :: unionDates (x :: as) bs := by
            show sortedUnion ((x :: as).map WingRow.date)
              (y.date :: bs.map WingRow.date) = _
            apply sortedUnion_cons_right
            intro d hd
            obtain ⟨v, hv, rfl⟩ := List.mem_map.mp hd
            rcases List.mem_cons.mp hv with rfl | hv'
            · exact hgt
            · exact lt_trans hgt (hpa'.1 v hv')
          rw [hud, List.map_cons]
          have hna : ∀ w ∈ x :: as, w.date ≠ y.date := by
            intro w hw
            rcases List.mem_cons.mp hw with rfl | hw'
            · omega
            · have := hpa'.1 w hw'
              omega
          rw [lookupPut_none hna, lookupCall_none hna,
            lookupPut_head rfl, lookupCall_head rfl]
          have hcg : ∀ d ∈ unionDates (x :: as) bs,
              (WingRow.mk d
                ((lookupPut (x :: as) d).orElse (fun _ => lookupPut (y :: bs) d))
                ((lookupCall (x :: as) d).orElse (fun _ => lookupCall (y :: bs) d))) =
                WingRow.mk d
                  ((lookupPut (x :: as) d).orElse (fun _ => lookupPut bs d))
                  ((lookupCall (x :: as) d).orElse (fun _ => lookupCall bs d)) := by
            intro d hd
            have hy : y.date ≠ d := by
              rcases (sortedUnion_mem _ _ d).mp hd with h | h
              · obtain ⟨v, hv, rfl⟩ := List.mem_map.mp h
                rcases List.mem_cons.mp hv with rfl | hv'
                · omega
                · have := hpa'.1 v hv'
                  omega
              · obtain ⟨v, hv, rfl⟩ := List.mem_map.mp h
                have := hpb'.1 v hv
                omega
            rw [lookupPut_tail hy, lookupCall_tail hy]
          rw [List.map_congr_left hcg]
          rfl

theorem pivotW_pairwise (rows : List Quote) :
    (pivotW rows).Pairwise (fun u v => u.date < v.date) := by
  unfold pivotW
  rw [List.pairwise_map]
  exact keysSorted_pairwise Quote.date rows

theorem combineFirstRef_pairwise (a b : List WingRow)
    (hb : b.Pairwise (fun u v => u.date < v.date)) :
    (combineFirstRef a b).Pairwise (fun u v => u.date < v.date) := by
  unfold combineFirstRef
  rw [List.pairwise_map]
  exact sortedUnion_pairwise _ _ (List.pairwise_map.mpr hb)

theorem wingsTierRows_eq (x : List Quote) (target dtol dltol : ℚ) :
    wingsTierRows x target dtol dltol =
      (if x.filter (fun q => decide (abs (q.tenor_d - target) ≤ dtol ∧
          abs (abs q.delta - 1/4) ≤ dltol)) = [] then none
       else some (bestPerKey gWings (wingsKey target)
         (x.filter (fun q => decide (abs (q.tenor_d - target) ≤ dtol ∧
           abs (abs q.delta - 1/4) ≤ dltol))))) := by
  unfold wingsTierRows
  have hzz : (x.filter (fun q => decide (abs (q.tenor_d - target) ≤ dtol))).filter
      (fun q => decide (abs (abs q.delta - 1/4) ≤ dltol)) =
      x.filter (fun q => decide (abs (q.tenor_d - target) ≤ dtol ∧
        abs (abs q.delta - 1/4) ≤ dltol)) := by
    rw [List.filter_filter]
    congr 1
    funext q
    by_cases hA : abs (q.tenor_d - target) ≤ dtol <;>
      by_cases hB : abs (abs q.delta - 1/4) ≤ dltol <;>
      simp [hA, hB]
  by_cases h1 : x.filter (fun q => decide (abs (q.tenor_d - target) ≤ dtol)) = []
  · rw [if_pos h1]
    have h2 : x.filter (fun q => decide (abs (q.tenor_d - target) ≤ dtol ∧
        abs (abs q.delta - 1/4) ≤ dltol)) = [] := by
      rw [← hzz, h1]
      rfl
    rw [if_pos h2]
  · rw [if_neg h1]
    by_cases h2 : (x.filter (fun q => decide (abs (q.tenor_d - target) ≤ dtol))).filter
        (fun q => decide (abs (abs q.delta - 1/4) ≤ dltol)) = []
    · rw [if_pos h2]
      rw [hzz] at h2
      rw [if_pos h2]
    · rw [if_neg h2]
      rw [hzz] at h2
      rw [if_neg h2, dedupG_insertionSort, hzz]

theorem wingsLoop_cons (x : List Quote) (target dtol dltol : ℚ)
    (rest : List (ℚ × ℚ)) (acc : Option (List WingRow)) :
    wingsLoop x target ((dtol, dltol) :: rest) acc =
      match wingsTierRows x target dtol dltol with
      | none => wingsLoop x target rest acc
      | some rows =>
        match acc with
        | none => wingsLoop x target rest (some (pivotW rows))
        | some o =>
          wingsLoop x target rest (some (combineFirst o (pivotW rows))) := rfl

theorem wingsRefLoop_cons (x : List Quote) (target dtol dltol : ℚ)
    (rest : List (ℚ × ℚ)) (acc : Option (List WingRow)) :
    wingsRefLoop x target ((dtol, dltol) :: rest) acc =
      (if x.filter (fun q => decide (abs (q.tenor_d - target) ≤ dtol ∧
          abs (abs q.delta - 1/4) ≤ dltol)) = [] then
        wingsRefLoop x target rest acc
      else
        match acc with
        | none =>
          wingsRefLoop x target rest (some (pivotW (bestPerKey gWings
            (wingsKey target) (x.filter (fun q =>
              decide (abs (q.tenor_d - target) ≤ dtol ∧
                abs (abs q.delta - 1/4) ≤ dltol))))))
        | some o =>
          wingsRefLoop x target rest (some (combineFirstRef o
            (pivotW (bestPerKey gWings (wingsKey target)
              (x.filter (fun q => decide (abs (q.tenor_d - target) ≤ dtol ∧
                abs (abs q.delta - 1/4) ≤ dltol)))))))) := rfl

theorem wingsLoop_eq_ref (x : List Quote) (target : ℚ) :
    ∀ (tiers : List (ℚ × ℚ)) (acc : Option (List WingRow)),
      (∀ o, acc = some o → o.Pairwise (fun u v => u.date < v.date)) →
      wingsLoop x target tiers acc = wingsRefLoop x target tiers acc := by
  intro tiers
  induction tiers with
  | nil => intro acc _; rfl
  | cons tier rest ih =>
    obtain ⟨dtol, dltol⟩ := tier
    intro acc hacc
    rw [wingsLoop_cons, wingsRefLoop_cons, wingsTierRows_eq]
    by_cases hz : x.filter (fun q => decide (abs (q.tenor_d - target) ≤ dtol ∧
        abs (abs q.delta - 1/4) ≤ dltol)) = []
    · rw [if_pos hz, if_pos hz]
      exact ih acc hacc
    · rw [if_neg hz, if_neg hz]
      cases acc with
      | none =>
        show wingsLoop x target rest (some (pivotW _)) = _
        exact ih _ (fun o h => by
          rw [Option.some_inj] at h
          rw [← h]
          exact pivotW_pairwise _)
      | some o =>
        show wingsLoop x target rest (some (combineFirst o (pivotW _))) = _
        have hco := combineFirst_eq_ref
          (o.length + (pivotW (bestPerKey gWings (wingsKey target)
            (x.filter (fun q => decide (abs (q.tenor_d - target) ≤ dtol ∧
              abs (abs q.delta - 1/4) ≤ dltol))))).length)
          o _ le_rfl (hacc o rfl) (pivotW_pairwise _)
        rw [hco]
        exact ih _ (fun o2 h => by
          rw [Option.some_inj] at h
          rw [← h]
          exact combineFirstRef_pairwise _ _ (pivotW_pairwise _))

/-- C6 as amended: on unit-scale inputs (no `_prep_base` auto-rescale), the
25-delta wing selector tries the tenor tiers `15d/25d/35d` with its own
delta tolerances `(0.05, 0.08, 0.10)` on `||delta| - 0.25|`; it does *not*
return at the first non-empty tier — every tier's per-`(date, put_call)`
best quotes (ranked by tenor distance, delta distance, spread, ties by
input order) are pivoted and combined across tiers with earlier tiers
taking precedence cell-wise (`combine_first`); if no tier matches, it falls
back to the 35-day window ranked by delta distance then spread; when one
whole side is missing — every output date lacks a put iv, or every output
date lacks a call iv — the selector raises `KeyError` at the skew step
(that side's pivot column was never created); otherwise, on every output
date the skew column is put iv minus call iv when both sides are present
there and missing otherwise. -/
theorem wings_selector_amended (qs : List Quote) (target : ℚ)
    (hprep : deltaRescaleNeeded qs = false) :
    pick_25d_wings_by_date qs target = pickWingsRef qs target := by
  rw [pick_25d_wings_by_date, prepBase_id_of_not_needed qs hprep, pickWingsRef]
  rw [wingsLoop_eq_ref qs target wingsTiers none (fun o h => by cases h)]
  cases wingsRefLoop qs target wingsTiers none with
  | some o => exact wingsSkewStep_eq_ref o
  | none =>
    show (if _ = ([] : List Quote) then (Except.ok [] : Except PyError (List WingOut)) else _) = _
    by_cases hz : qs.filter (fun q => decide (abs (q.tenor_d - target) ≤ 35)) = []
    · rw [if_pos hz, if_pos hz]
    · rw [if_neg hz, if_neg hz, dedupG_insertionSort]
      exact wingsSkewStep_eq_ref _

/-- Witness for the amended C6 at the two-quote input of the
counterexample. -/
theorem wings_selector_amended_witness :
    deltaRescaleNeeded
      [⟨1, 30, PC.C, 1/10, 11/100, 1/5, 1/4⟩,
       ⟨2, 50, PC.P, 1/10, 3/25, 3/10, -(1/4)⟩] = false ∧
    pick_25d_wings_by_date
        [⟨1, 30, PC.C, 1/10, 11/100, 1/5, 1/4⟩,
         ⟨2, 50, PC.P, 1/10, 3/25, 3/10, -(1/4)⟩] 30 =
      pickWingsRef
        [⟨1, 30, PC.C, 1/10, 11/100, 1/5, 1/4⟩,
         ⟨2, 50, PC.P, 1/10, 3/25, 3/10, -(1/4)⟩] 30 := by
  have hprep : deltaRescaleNeeded
      [⟨1, 30, PC.C, 1/10, 11/100, 1/5, 1/4⟩,
       ⟨2, 50, PC.P, 1/10, 3/25, 3/10, -(1/4)⟩] = false := by
    norm_num [deltaRescaleNeeded, quantile99, List.insertionSort,
      List.orderedInsert, List.getD, abs_of_nonneg, abs_of_nonpos]
    all_goals try simp
    all_goals norm_num
  exact ⟨hprep,
    wings_selector_amended
      [⟨1, 30, PC.C, 1/10, 11/100, 1/5, 1/4⟩,
       ⟨2, 50, PC.P, 1/10, 3/25, 3/10, -(1/4)⟩] 30 hprep⟩

/-- The `KeyError` path of the wings selector is real: on a calls-only
table the combined pivot never creates the put column, so the skew step
fails instead of returning a put-less row. -/
theorem wings_one_sided_keyError :
    pick_25d_wings_by_date [⟨1, 30, PC.C, 1/10, 11/100, 1/5, 1/4⟩] 30 =
      .error .keyError := by
  have hg1 : gWings ⟨1, 30, PC.C, 1/10, 11/100, 1/5, 1/4⟩ = 2 := by
    simp [gWings]
  have hprep : prepBase [⟨1, 30, PC.C, 1/10, 11/100, 1/5, 1/4⟩] =
      [⟨1, 30, PC.C, 1/10, 11/100, 1/5, 1/4⟩] := by
    apply prepBase_id_of_not_needed
    norm_num [deltaRescaleNeeded, quantile99, List.insertionSort,
      List.orderedInsert, List.getD, abs_of_nonneg, abs_of_nonpos]
    all_goals try simp
    all_goals norm_num
  rw [pick_25d_wings_by_date]
  rw [hprep]
  norm_num [wingsLoop, wingsTierRows, wingsTiers, pivotW, combineFirst,
    wingsSkewStep, wingsFinish, keysSorted, insertKey, hg1, wingsKey,
    lexRel, kle, dedupG_cons, dedupG_nil, List.insertionSort,
    List.orderedInsert, List.any_cons, List.any_nil,
    List.filter_cons, List.filter_nil, List.find?, Option.orElse,
    abs_of_nonneg, abs_of_nonpos]
  all_goals try simp [wingsLoop, wingsTierRows, wingsTiers, pivotW, combineFirst,
    wingsSkewStep, wingsFinish, keysSorted, insertKey, hg1, wingsKey,
    lexRel, kle, dedupG_cons, dedupG_nil, List.insertionSort,
    List.orderedInsert, List.any_cons, List.any_nil,
    List.filter_cons, List.filter_nil, List.find?, Option.orElse,
    abs_of_nonneg, abs_of_nonpos]
